import Mathlib

/-!
Verification of the record shredding/assembly core and the column buffers of
the parquet-go repository (src/row.go and src/buffer_column.go).

The Go source is shallowly embedded: Go slices become Lean lists, Go structs
become Lean structures, and methods that mutate a receiver become functions
from the old state to the new state.  Machine integers (`int8` levels,
`uint32` region offsets, `int` indices) are modelled as `Int`/`Nat`; none of
the modelled operations perform wrapping arithmetic below the documented
bounds (levels and column indexes are bounded by 127 in the source), so the
unbounded model agrees with the source on every execution within those
bounds.  Go's `(value, error)` returns are modelled as pairs with an
`Option String` error component, or as `Except String` where more
convenient.
-/

namespace ParquetGo

/-- Modelled from the spec: the `Value` struct of the repository (file
`value.go`, not part of the provided sources).  Per the spec ("Data model"):
a primitive payload tagged by physical kind plus a column index, a repetition
level and a definition level.  The payload is modelled as an `Int` together
with a `null` flag (the zero `Value{}` of Go is the null value with zero
payload).  The column index is stored in Go as the bitwise complement
`^int8(columnIndex)` and recovered by `ColumnIndex()`; since the complement
round-trips, the model stores the true index directly. -/
structure Value where
  payload : Int
  null : Bool
  columnIndex : Nat
  repetitionLevel : Int
  definitionLevel : Int
deriving DecidableEq, Repr

/-- The zero Go `Value{}` (a null value with zero payload). -/
def Value.nullValue : Value := ⟨0, true, 0, 0, 0⟩

instance : Inhabited Value := ⟨Value.nullValue⟩

/-- Modelled from the spec: the error returned for a negative `ReadRowAt`
index ("out-of-range negative index fails with an index out of bounds
error"); `errRowIndexOutOfBounds` lives outside the provided sources. -/
def errRowIndexOutOfBounds : String := "row index out of bounds"

/-- The `io.EOF` sentinel returned for a past-the-end `ReadRowAt` index. -/
def errEOF : String := "EOF"

/-! ## Flat typed buffer columns

`booleanBufferColumn`, `int32BufferColumn`, `int64BufferColumn`,
`int96BufferColumn`, `floatBufferColumn`, `doubleBufferColumn` and
`byteArrayBufferColumn` in `buffer_column.go` are textually identical up to
the payload type: each stores a growable array of payloads, `WriteRow`
appends one payload per incoming value and returns `nil`, `ReadRowAt`
dispatches on `index < 0` / `index >= len(values)` / in range, and `Swap`
exchanges two stored payloads.  They are modelled once, generically in the
payload type `α`, together with the payload embedding `mk : α → Value`
(Go's `makeValueBoolean`, `makeValueInt32`, ...) and the payload projection
`get : Value → α` (Go's `v.Boolean()`, `v.Int32()`, ...). -/

structure FlatCol (α : Type) where
  values : List α
deriving DecidableEq, Repr

/-- In-place exchange of two list entries (Go's parallel assignment
`l[i], l[j] = l[j], l[i]`); out-of-bounds indices leave the list unchanged
(Go panics there; no modelled caller passes out-of-bounds indices). -/
def listSwap [Inhabited α] (l : List α) (i j : Nat) : List α :=
  if i < l.length ∧ j < l.length then (l.set i l[j]!).set j l[i]! else l

/-- `WriteRow` of a flat typed buffer column: appends each value's payload
and unconditionally returns no error. -/
def FlatCol.writeRow (col : FlatCol α) (get : Value → α) (row : List Value) :
    FlatCol α × Option String :=
  (⟨col.values ++ row.map get⟩, none)

/-- `ReadRowAt` of a flat typed buffer column. -/
def FlatCol.readRowAt [Inhabited α] (col : FlatCol α) (mk : α → Value)
    (row : List Value) (index : Int) : List Value × Option String :=
  if index < 0 then (row, some errRowIndexOutOfBounds)
  else if index ≥ (col.values.length : Int) then (row, some errEOF)
  else (row ++ [mk col.values[index.toNat]!], none)

/-- `Swap` of a flat typed buffer column. -/
def FlatCol.swap [Inhabited α] (col : FlatCol α) (i j : Nat) : FlatCol α :=
  ⟨listSwap col.values i j⟩

/-- `Page` of a flat typed buffer column: a read-only view over the current
values (no null filtering at this level). -/
def FlatCol.page (col : FlatCol α) : List α := col.values

/-- `Reset` of a flat typed buffer column. -/
def FlatCol.reset (_ : FlatCol α) : FlatCol α := ⟨[]⟩

/-- `Clone` of a flat typed buffer column (deep copy). -/
def FlatCol.clone (col : FlatCol α) : FlatCol α := ⟨col.values⟩

/-- `fixedLenByteArrayBufferColumn`: a flat byte buffer carved into rows of
`size` bytes.  `ReadRowAt` computes byte offsets `i = index*size`,
`j = (index+1)*size` and dispatches on `i < 0` / `j > len(data)`. -/
structure FixedLenCol where
  size : Nat
  data : List Int
deriving DecidableEq, Repr

def FixedLenCol.len (col : FixedLenCol) : Nat := col.data.length / col.size

def FixedLenCol.readRowAt (col : FixedLenCol) (row : List Value) (index : Int) :
    List Value × Option String :=
  let i : Int := (index + 0) * col.size
  let j : Int := (index + 1) * col.size
  if i < 0 then (row, some errRowIndexOutOfBounds)
  else if j > (col.data.length : Int) then (row, some errEOF)
  else
    (row ++ [⟨((col.data.drop i.toNat).take col.size).foldl (fun a b => a * 256 + b) 0,
              false, 0, 0, 0⟩], none)

/-- `WriteRow` of `fixedLenByteArrayBufferColumn`: appends each value's
bytes and unconditionally returns no error. -/
def FixedLenCol.writeRow (col : FixedLenCol) (bytes : Value → List Int)
    (row : List Value) : FixedLenCol × Option String :=
  (⟨col.size, col.data ++ (row.map bytes).flatten⟩, none)

/-! ## Null handling and page compaction -/

/-- `isNull` from `buffer_column.go`: a position is null when its definition
level differs from the column's maximum definition level. -/
def isNull (i : Nat) (maxDefinitionLevel : Int) (definitionLevels : List Int) : Bool :=
  definitionLevels.getD i maxDefinitionLevel ≠ maxDefinitionLevel

/-- The inner scan of `rowGroupColumnPageWithoutNulls`: advance `j` over null
positions. -/
def skipNulls (maxD : Int) (defs : List Int) (j : Nat) : Nat :=
  if h : j < defs.length then
    if isNull j maxD defs then skipNulls maxD defs (j + 1) else j
  else j
termination_by defs.length - j

/-- The scan pointer never moves backwards (used for termination of the
compaction loop). -/
def skipNulls_ge (maxD : Int) (defs : List Int) (j : Nat) :
    j ≤ skipNulls maxD defs j := by
  unfold skipNulls
  split
  · split
    · have := skipNulls_ge maxD defs (j + 1)
      omega
    · exact Nat.le_refl j
  · exact Nat.le_refl j
termination_by defs.length - j

/-- The two-pointer null-compaction scan of `rowGroupColumnPageWithoutNulls`:
swap each non-null value into the next free slot at the front, returning the
mutated values and the non-null count `n`. -/
def compactLoop [Inhabited α] (maxD : Int) (defs : List Int) :
    List α → Nat → Nat → List α × Nat
  | vals, n, i =>
    if hi : i < defs.length then
      let j := skipNulls maxD defs i
      if hj : j < defs.length then
        compactLoop maxD defs (listSwap vals n j) (n + 1) (j + 1)
      else (vals, n)
    else (vals, n)
termination_by _ _ i => defs.length - i
decreasing_by
  have := skipNulls_ge maxD defs i
  omega

/-- `rowGroupColumnPageWithoutNulls` specialised to a flat base column:
returns the mutated base and the page `base.Page().Slice(0, n)`. -/
def pageWithoutNulls [Inhabited α] (col : FlatCol α) (maxD : Int)
    (defs : List Int) : FlatCol α × List α :=
  let r := compactLoop maxD defs col.values 0 0
  (⟨r.1⟩, r.1.take r.2)

/-! ## Optional buffer column -/

structure OptionalCol (α : Type) where
  base : FlatCol α
  maxDefinitionLevel : Int
  definitionLevels : List Int
deriving DecidableEq, Repr

/-- `optionalBufferColumn.Page`: compacts the nulls out of the base (mutating
it) and pairs the compacted values with the full definition-level array.  The
returned page is modelled by its contents: the compacted non-null values and
the definition levels. -/
def OptionalCol.page [Inhabited α] (col : OptionalCol α) :
    OptionalCol α × (List α × List Int) :=
  let r := pageWithoutNulls col.base col.maxDefinitionLevel col.definitionLevels
  ({ col with base := r.1 }, (r.2, col.definitionLevels))

/-- `optionalBufferColumn.WriteRow`: delegates to the base, then appends each
incoming value's definition level. -/
def OptionalCol.writeRow (col : OptionalCol α) (get : Value → α)
    (row : List Value) : OptionalCol α × Option String :=
  match col.base.writeRow get row with
  | (base', some e) => ({ col with base := base' }, some e)
  | (base', none) =>
      ({ col with
          base := base',
          definitionLevels := col.definitionLevels ++ row.map (·.definitionLevel) },
        none)

/-- `optionalBufferColumn.ReadRowAt`. -/
def OptionalCol.readRowAt [Inhabited α] (col : OptionalCol α) (mk : α → Value)
    (row : List Value) (index : Int) : List Value × Option String :=
  if index < 0 then (row, some errRowIndexOutOfBounds)
  else if index ≥ (col.definitionLevels.length : Int) then (row, some errEOF)
  else
    let definitionLevel := col.definitionLevels[index.toNat]!
    if definitionLevel ≠ col.maxDefinitionLevel then
      (row ++ [{ Value.nullValue with definitionLevel := definitionLevel }], none)
    else
      let n := row.length
      match col.base.readRowAt mk row index with
      | (row', some e) => (row', some e)
      | (row', none) =>
          if n = row'.length then
            (row'.take n, some "optional column has no value for row index")
          else if n ≠ row'.length - 1 then
            (row'.take n, some "optional column has more than one value for row index")
          else
            (row'.set n { row'[n]! with definitionLevel := definitionLevel }, none)

/-! ## Repeated buffer column -/

structure Region where
  offset : Nat
  length : Nat
deriving DecidableEq, Repr

instance : Inhabited Region := ⟨⟨0, 0⟩⟩

structure RepeatedCol (α : Type) where
  base : FlatCol α
  maxRepetitionLevel : Int
  maxDefinitionLevel : Int
  rows : List Region
  repetitionLevels : List Int
  definitionLevels : List Int
deriving DecidableEq, Repr

/-- `newRepeatedBufferColumn`: all arrays start empty. -/
def RepeatedCol.new (maxR maxD : Int) : RepeatedCol α :=
  ⟨⟨[]⟩, maxR, maxD, [], [], []⟩

/-- `repeatedBufferColumn.Clone` (deep copy). -/
def RepeatedCol.clone (col : RepeatedCol α) : RepeatedCol α :=
  ⟨⟨col.base.values⟩, col.maxRepetitionLevel, col.maxDefinitionLevel,
    col.rows, col.repetitionLevels, col.definitionLevels⟩

/-- `repeatedBufferColumn.Reset`. -/
def RepeatedCol.reset (col : RepeatedCol α) : RepeatedCol α :=
  { col with base := col.base.reset, rows := [], repetitionLevels := [],
             definitionLevels := [] }

/-- `repeatedBufferColumn.Swap`: swaps only the two region entries. -/
def RepeatedCol.swap (col : RepeatedCol α) (i j : Nat) : RepeatedCol α :=
  { col with rows := listSwap col.rows i j }

/-- `repeatedBufferColumn.row`: the region for the next logical row of `n`
values. -/
def RepeatedCol.mkRow (col : RepeatedCol α) (n : Nat) : Region :=
  ⟨col.repetitionLevels.length, n⟩

/-- `repeatedBufferColumn.WriteRow`: delegates to the base, then appends one
region and each value's repetition and definition level. -/
def RepeatedCol.writeRow (col : RepeatedCol α) (get : Value → α)
    (row : List Value) : RepeatedCol α × Option String :=
  match col.base.writeRow get row with
  | (base', some e) => ({ col with base := base' }, some e)
  | (base', none) =>
      ({ col with
          base := base',
          rows := col.rows ++ [col.mkRow row.length],
          repetitionLevels := col.repetitionLevels ++ row.map (·.repetitionLevel),
          definitionLevels := col.definitionLevels ++ row.map (·.definitionLevel) },
        none)

/-- The per-position loop of `repeatedBufferColumn.ReadRowAt`, walking the
paired repetition/definition levels of one region.  `reset` is the length of
the caller's row on entry; every error branch truncates back to it. -/
def repReadLoop [Inhabited α] (base : FlatCol α) (mk : α → Value) (maxD : Int)
    (offset reset : Nat) : List (Int × Int) → Nat → List Value →
    List Value × Option String
  | [], _, row => (row, none)
  | (rl, dl) :: rest, i, row =>
    if dl ≠ maxD then
      repReadLoop base mk maxD offset reset rest (i + 1)
        (row ++ [{ Value.nullValue with repetitionLevel := rl, definitionLevel := dl }])
    else
      let n := row.length
      match base.readRowAt mk row ((offset + i : Nat) : Int) with
      | (row', some e) => (row'.take reset, some e)
      | (row', none) =>
          if n = row'.length then
            (row'.take reset, some "repeated column has no values for element")
          else if n ≠ row'.length - 1 then
            (row'.take reset, some "repeated column has more than one value for element")
          else
            repReadLoop base mk maxD offset reset rest (i + 1)
              (row'.set n { row'[n]! with repetitionLevel := rl, definitionLevel := dl })

/-- `repeatedBufferColumn.ReadRowAt`. -/
def RepeatedCol.readRowAt [Inhabited α] (col : RepeatedCol α) (mk : α → Value)
    (row : List Value) (index : Int) : List Value × Option String :=
  if index < 0 then (row, some errRowIndexOutOfBounds)
  else if index ≥ (col.rows.length : Int) then (row, some errEOF)
  else
    let reset := row.length
    let region := col.rows[index.toNat]!
    let rls := (col.repetitionLevels.drop region.offset).take region.length
    let dls := (col.definitionLevels.drop region.offset).take region.length
    repReadLoop col.base mk col.maxDefinitionLevel region.offset reset
      (rls.zip dls) 0 row

/-- The repeated-buffer structural invariant: the region lengths sum to the
length of both parallel level arrays. -/
def RepeatedCol.inv (col : RepeatedCol α) : Prop :=
  (col.rows.map (·.length)).sum = col.repetitionLevels.length ∧
    col.repetitionLevels.length = col.definitionLevels.length

/-! ## Schema trees, host values and levels (row.go)

A schema node carries a repetition flavor (required / optional / repeated,
Go's `node.Optional()` / `node.Repeated()`) over a content that is a leaf, a
named group, a logical list (`isList`) or a logical map (`isMap`).  Child
names play no semantic role in shredding/assembly (children are traversed in
declaration order), so the model keeps children as an ordered list.  Map
keys are modelled as primitive leaves (`map<K primitive, V>`), matching the
repeated `{key, value}` group the source lowers maps to. -/

mutual
inductive Content where
  | leaf : Content
  | group : List Node → Content
  | list : Content → Content
  | mapOf : Node → Content
inductive Node where
  | required : Content → Node
  | optional : Content → Node
  | repeated : Content → Node
end

/-- The repeated `{key, value}` group a map lowers to:
`Repeated(schemaOf(keyValueElem))` in `deconstructFuncOfMap` /
`reconstructFuncOfMap`. -/
def mapPairNode (v : Node) : Node := .repeated (.group [.required .leaf, v])

/-- A host-language (reflected) value, mirroring what `reflect.Value` can
hold for records of the modelled schemas: the invalid value
`reflect.Value{}`, a primitive, a struct (ordered fields), a slice (with its
Go nil flag: a nil slice and an empty non-nil slice are distinct values with
the same length), and a map (with its Go nil flag; entries in iteration
order).  Pointer indirection for optional fields is not modelled: the source
treats a non-pointer optional field identically except for one dereference,
and the zero-value-is-null convention is the same in both layouts. -/
inductive GoValue where
  | invalid : GoValue
  | prim : Int → GoValue
  | strukt : List GoValue → GoValue
  | slice : Bool → List GoValue → GoValue
  | gomap : Bool → List (Int × GoValue) → GoValue

/-! A size measure on schema trees used for termination of the traversal
functions: list and map nodes weigh enough to dominate the repeated /
repeated-group node the source delegates them to. -/
mutual
def Node.msize : Node → Nat
  | .required c => 1 + c.msize
  | .optional c => 2 + c.msize
  | .repeated c => 2 + c.msize
def Content.msize : Content → Nat
  | .leaf => 1
  | .group cs => 1 + msizeList cs
  | .list e => 2 + e.msize
  | .mapOf v => 7 + v.msize
def msizeList : List Node → Nat
  | [] => 0
  | n :: rest => 1 + n.msize + msizeList rest
end

/-! Number of leaf columns of a subtree: `nextColumnIndex - columnIndex` of
the compile functions. -/
mutual
def Node.colCount : Node → Nat
  | .required c => c.colCount
  | .optional c => c.colCount
  | .repeated c => c.colCount
def Content.colCount : Content → Nat
  | .leaf => 1
  | .group cs => colCountList cs
  | .list e => e.colCount
  | .mapOf v => 1 + v.colCount
def colCountList : List Node → Nat
  | [] => 0
  | n :: rest => n.colCount + colCountList rest
end

/-! Well-formedness of a schema: every group has at least one child (an
empty group declares no column and is rejected by the schema layer). -/
mutual
def Node.wf : Node → Bool
  | .required c => c.wf
  | .optional c => c.wf
  | .repeated c => c.wf
def Content.wf : Content → Bool
  | .leaf => true
  | .group cs => !cs.isEmpty && wfList cs
  | .list e => e.wf
  | .mapOf v => v.wf
def wfList : List Node → Bool
  | [] => true
  | n :: rest => n.wf && wfList rest
end

/-! The zero (default) host value of a schema node's host type:
`reflect.Zero(type)`. -/
mutual
def Node.zero : Node → GoValue
  | .required c => c.zero
  | .optional c => c.zero
  | .repeated _ => .slice true []
def Content.zero : Content → GoValue
  | .leaf => .prim 0
  | .group cs => .strukt (zeroList cs)
  | .list _ => .slice true []
  | .mapOf _ => .gomap true []
def zeroList : List Node → List GoValue
  | [] => []
  | n :: rest => n.zero :: zeroList rest
end

/-! Go's `reflect.Value.IsZero`: a primitive is zero when its payload is
zero, a slice or map when it is nil, a struct when all its fields are zero.
(The source never queries `IsZero` on an invalid value.) -/
mutual
def GoValue.isZero : GoValue → Bool
  | .invalid => true
  | .prim n => n == 0
  | .strukt fs => isZeroList fs
  | .slice b _ => b
  | .gomap b _ => b
def isZeroList : List GoValue → Bool
  | [] => true
  | v :: rest => v.isZero && isZeroList rest
end

def keysNodup : List Int → Bool
  | [] => true
  | k :: rest => !(rest.contains k) && keysNodup rest

/-! `hasShape v n`: the host value `v` is a record of shape `n`.  A nil
slice/map is required to be empty, and map keys are distinct (Go maps cannot
hold duplicate keys). -/
mutual
def hasShape : GoValue → Node → Bool
  | v, .required c => contentShape v c
  | v, .optional c => contentShape v c
  | v, .repeated c =>
      match v with
      | .slice b elems => (!b || elems.isEmpty) && elemsShape elems c
      | _ => false
  termination_by v n => (sizeOf n, 0)
  decreasing_by all_goals (simp_wf; rw [Prod.lex_def]; simp [mapPairNode] <;> omega)
def contentShape : GoValue → Content → Bool
  | .prim _, .leaf => true
  | .strukt fs, .group cs => fieldsShape fs cs
  | .slice b elems, .list e => (!b || elems.isEmpty) && elemsShape elems e
  | .gomap b entries, .mapOf vn =>
      (!b || entries.isEmpty) && keysNodup (entries.map Prod.fst) &&
        entriesShape entries vn
  | _, _ => false
  termination_by _ c => (sizeOf c, 0)
  decreasing_by all_goals (simp_wf; rw [Prod.lex_def]; simp [mapPairNode] <;> omega)
def elemsShape : List GoValue → Content → Bool
  | [], _ => true
  | v :: rest, c => contentShape v c && elemsShape rest c
  termination_by elems c => (sizeOf c, sizeOf elems)
  decreasing_by all_goals (simp_wf; rw [Prod.lex_def]; simp [mapPairNode] <;> omega)
def fieldsShape : List GoValue → List Node → Bool
  | [], [] => true
  | v :: vs, n :: ns => hasShape v n && fieldsShape vs ns
  | _, _ => false
  termination_by _ ns => (sizeOf ns, 0)
  decreasing_by all_goals (simp_wf; rw [Prod.lex_def]; simp [mapPairNode] <;> omega)
def entriesShape : List (Int × GoValue) → Node → Bool
  | [], _ => true
  | (_, v) :: rest, vn => hasShape v vn && entriesShape rest vn
  termination_by entries vn => (sizeOf vn, sizeOf entries)
  decreasing_by all_goals (simp_wf; rw [Prod.lex_def]; simp [mapPairNode] <;> omega)
end

/-- The `levels` triple threaded through shredding and assembly. -/
structure Levels where
  repetitionDepth : Int
  repetitionLevel : Int
  definitionLevel : Int
deriving DecidableEq, Repr

/-- The all-zero levels a traversal starts from. -/
def Levels.start : Levels := ⟨0, 0, 0⟩

/-- `Row.startsWith`: the row is non-empty and its first value belongs to
the given column. -/
def startsWithCol (idx : Nat) (row : List Value) : Bool :=
  match row with
  | [] => false
  | v :: _ => v.columnIndex == idx

/-! ### Shredding (`deconstructFuncOf` and the closures it compiles)

`deconstruct n idx lv v` is the list of values the compiled deconstructor
for subtree `n` (whose first column is `idx`) appends to the row when
invoked with levels `lv` on host value `v`.  Levels are `int8` in the
source; they are modelled as unbounded `Int`, which agrees with the source
whenever the nesting depth stays within the documented bound of 127.
`deconstructElems` is the element loop of `deconstructFuncOfRepeated`;
`deconstructGroup` the child loop of `deconstructFuncOfGroup` (an invalid
parent passes the invalid value to every child).  A valid non-slice value
reaching a repeated node or a valid non-struct reaching a group panics in Go
and is folded into the invalid branch here; no such value satisfies
`hasShape`. -/

mutual
def deconstruct : Node → Nat → Levels → GoValue → List Value
  | .optional c, idx, lv, v =>
      match v with
      | .invalid => deconstruct (.required c) idx lv .invalid
      | v =>
          if v.isZero then deconstruct (.required c) idx lv .invalid
          else
            deconstruct (.required c) idx
              { lv with definitionLevel := lv.definitionLevel + 1 } v
  | .repeated c, idx, lv, v =>
      match v with
      | .slice _ elems =>
          let lv1 := { lv with repetitionDepth := lv.repetitionDepth + 1 }
          match elems with
          | [] => deconstruct (.required c) idx lv1 .invalid
          | _ :: _ =>
              deconstructElems c idx
                { lv1 with definitionLevel := lv1.definitionLevel + 1 } elems
      | _ => deconstruct (.required c) idx lv .invalid
  | .required .leaf, idx, lv, v =>
      match v with
      | .prim n => [⟨n, false, idx, lv.repetitionLevel, lv.definitionLevel⟩]
      | _ => [⟨0, true, idx, lv.repetitionLevel, lv.definitionLevel⟩]
  | .required (.group cs), idx, lv, v =>
      match v with
      | .strukt fields => deconstructGroup cs idx lv fields
      | _ => deconstructGroup cs idx lv []
  | .required (.list e), idx, lv, v => deconstruct (.repeated e) idx lv v
  | .required (.mapOf vn), idx, lv, v =>
      match v with
      | .gomap _ entries =>
          deconstruct (mapPairNode vn) idx lv
            (.slice false (entries.map fun p => .strukt [.prim p.1, p.2]))
      | _ => deconstruct (mapPairNode vn) idx lv .invalid
  termination_by n _ _ _ => (n.msize, 0)
  decreasing_by all_goals (simp_wf; rw [Prod.lex_def]; simp [Node.msize, Content.msize, msizeList, mapPairNode] <;> omega)
def deconstructElems : Content → Nat → Levels → List GoValue → List Value
  | _, _, _, [] => []
  | c, idx, lv, e :: rest =>
      deconstruct (.required c) idx lv e ++
        deconstructElems c idx { lv with repetitionLevel := lv.repetitionDepth } rest
  termination_by c _ _ elems => (c.msize + 1, elems.length)
  decreasing_by all_goals (simp_wf; rw [Prod.lex_def]; simp [Node.msize, Content.msize, msizeList, mapPairNode] <;> omega)
def deconstructGroup : List Node → Nat → Levels → List GoValue → List Value
  | [], _, _, _ => []
  | n :: rest, idx, lv, fs =>
      deconstruct n idx lv (fs.headD .invalid) ++
        deconstructGroup rest (idx + n.colCount) lv fs.tail
  termination_by cs _ _ _ => (msizeList cs + 1, 0)
  decreasing_by all_goals (simp_wf; rw [Prod.lex_def]; simp [Node.msize, Content.msize, msizeList, mapPairNode] <;> omega)
end

/-- `MaxColumnIndex` from row.go (`math.MaxInt8`). -/
def MaxColumnIndex : Nat := 127

/-- The diagnostic of the panic raised by `deconstructFuncOfLeaf` on column
overflow. -/
def columnOverflowPanic : String :=
  "row cannot be deconstructed because it has more than 127 columns"

/-! The compile-time column-index threading of `deconstructFuncOf`: returns
the next free column index, or the diagnostic of the `panic` raised by
`deconstructFuncOfLeaf` when a leaf's index exceeds `MaxColumnIndex`.
`deconstructFuncOfGroup` threads the index through the children in
declaration order and stops at the first failing child. -/
mutual
def deconstructFuncOf : Nat → Node → Except String Nat
  | idx, .optional c => deconstructFuncOf idx (.required c)
  | idx, .repeated c => deconstructFuncOf idx (.required c)
  | idx, .required .leaf =>
      if idx > MaxColumnIndex then .error columnOverflowPanic
      else .ok (idx + 1)
  | idx, .required (.group cs) => deconstructFuncOfGroup idx cs
  | idx, .required (.list e) => deconstructFuncOf idx (.repeated e)
  | idx, .required (.mapOf vn) => deconstructFuncOf idx (mapPairNode vn)
  termination_by _ n => (n.msize, 0)
  decreasing_by all_goals (simp_wf; rw [Prod.lex_def]; simp [Node.msize, Content.msize, msizeList, mapPairNode] <;> omega)
def deconstructFuncOfGroup : Nat → List Node → Except String Nat
  | idx, [] => .ok idx
  | idx, n :: rest =>
      match deconstructFuncOf idx n with
      | .error e => .error e
      | .ok idx' => deconstructFuncOfGroup idx' rest
  termination_by _ cs => (msizeList cs + 1, 0)
  decreasing_by all_goals (simp_wf; rw [Prod.lex_def]; simp [Node.msize, Content.msize, msizeList, mapPairNode] <;> omega)
end

/-! The column index each leaf's compiled closure captures
(`valueColumnIndex`, decoded), in leaf order. -/
mutual
def leafIndexes : Nat → Node → List Nat
  | idx, .optional c => leafIndexes idx (.required c)
  | idx, .repeated c => leafIndexes idx (.required c)
  | idx, .required .leaf => [idx]
  | idx, .required (.group cs) => leafIndexesGroup idx cs
  | idx, .required (.list e) => leafIndexes idx (.repeated e)
  | idx, .required (.mapOf vn) => leafIndexes idx (mapPairNode vn)
  termination_by _ n => (n.msize, 0)
  decreasing_by all_goals (simp_wf; rw [Prod.lex_def]; simp [Node.msize, Content.msize, msizeList, mapPairNode] <;> omega)
def leafIndexesGroup : Nat → List Node → List Nat
  | _, [] => []
  | idx, n :: rest => leafIndexes idx n ++ leafIndexesGroup (idx + n.colCount) rest
  termination_by _ cs => (msizeList cs + 1, 0)
  decreasing_by all_goals (simp_wf; rw [Prod.lex_def]; simp [Node.msize, Content.msize, msizeList, mapPairNode] <;> omega)
end

def destFields : GoValue → List GoValue
  | .strukt fs => fs
  | _ => []

def primPayload : GoValue → Int
  | .prim n => n
  | _ => 0

/-! ### Assembly (`reconstructFuncOf` and the closures it compiles)

`reconstruct n idx lv dest row` consumes a prefix of `row` and returns the
value written into the destination slot together with the unconsumed
suffix, or the error the source returns.  The working-buffer mechanics of
`reconstructFuncOfRepeated` (initial capacity 10, doubling, final trim) are
not observable in the resulting slice and are represented by accumulating
the elements directly; the destination passed to each element is the zero
value of the element type, as the freshly made slices of the source hold.
`assignValue` (value.go, outside the provided sources) is modelled from the
spec as the payload conversion onto the destination slot, here the identity
on the primitive payload.  The loop of the source is a `for` over the
shrinking row; it is modelled with a fuel argument initialised to the row
length, which dominates the iteration count because every successful child
invocation consumes at least one value.  Child-name annotation of group
errors keeps a fixed prefix since names are not modelled. -/

mutual
def reconstruct : Node → Nat → Levels → GoValue → List Value →
    Except String (GoValue × List Value)
  | .optional c, idx, lv, dest, row =>
      let rowLength := c.colCount
      if !startsWithCol idx row then .error "row is missing optional column"
      else if row.length < rowLength then
        .error "expected optional column to have at least rowLength values"
      else
        let lv := { lv with definitionLevel := lv.definitionLevel + 1 }
        if (row.headD Value.nullValue).definitionLevel < lv.definitionLevel then
          .ok ((Node.optional c).zero, row.drop rowLength)
        else reconstruct (.required c) idx lv dest row
  | .repeated c, idx, lv, dest, row =>
      let rowLength := c.colCount
      if !startsWithCol idx row then .error "row is missing repeated column"
      else if row.length < rowLength then
        .error "expected repeated column to have at least rowLength values"
      else
        match dest with
        | .slice _ _ =>
            let lv := { lv with definitionLevel := lv.definitionLevel + 1,
                                repetitionDepth := lv.repetitionDepth + 1 }
            if (row.headD Value.nullValue).definitionLevel < lv.definitionLevel then
              .ok (.slice false [], row.drop rowLength)
            else reconstructRepeatedLoop c idx lv row.length [] row
        | _ => .error "cannot reconstruct repeated column into go value of non-slice type"
  | .required .leaf, idx, _, _, row =>
      match row with
      | [] => .error "expected one value to reconstruct leaf parquet row"
      | v :: rest =>
          if v.columnIndex ≠ idx then
            .error "no values found in parquet row for column"
          else .ok (.prim v.payload, rest)
  | .required (.group cs), idx, lv, dest, row =>
      match reconstructGroup cs idx lv (destFields dest) row with
      | .error e => .error e
      | .ok (fs, row') => .ok (.strukt fs, row')
  | .required (.list e), idx, lv, dest, row => reconstruct (.repeated e) idx lv dest row
  | .required (.mapOf vn), idx, lv, _, row =>
      match reconstruct (mapPairNode vn) idx lv (.slice true []) row with
      | .error e => .error e
      | .ok (kvs, row') =>
          match kvs with
          | .slice true _ => .ok (.gomap true [], row')
          | .slice false entries =>
              .ok (.gomap false (entries.map fun x =>
                    match x with
                    | .strukt (k :: v :: _) => (primPayload k, v)
                    | _ => (0, GoValue.invalid)), row')
          | _ => .error "cannot reconstruct map column"
  termination_by n _ _ _ _ => (n.msize, 0)
  decreasing_by all_goals (simp_wf; rw [Prod.lex_def]; simp [Node.msize, Content.msize, msizeList, mapPairNode] <;> omega)
def reconstructRepeatedLoop : Content → Nat → Levels → Nat → List GoValue →
    List Value → Except String (GoValue × List Value)
  | c, idx, lv, fuel, acc, row =>
      if startsWithCol idx row ∧
          (row.headD Value.nullValue).repetitionLevel = lv.repetitionLevel then
        match fuel with
        | 0 => .error "repeated column loop did not consume the row"
        | fuel + 1 =>
            match reconstruct (.required c) idx lv (Node.required c).zero row with
            | .error e => .error e
            | .ok (x, row') =>
                reconstructRepeatedLoop c idx
                  { lv with repetitionLevel := lv.repetitionDepth } fuel (acc ++ [x]) row'
      else .ok (.slice false acc, row)
  termination_by c _ _ fuel _ _ => (c.msize + 1, fuel + 1)
  decreasing_by all_goals (simp_wf; rw [Prod.lex_def]; simp [Node.msize, Content.msize, msizeList, mapPairNode] <;> omega)
def reconstructGroup : List Node → Nat → Levels → List GoValue → List Value →
    Except String (List GoValue × List Value)
  | [], _, _, _, row => .ok ([], row)
  | n :: rest, idx, lv, fs, row =>
      match reconstruct n idx lv (fs.headD .invalid) row with
      | .error e => .error ("field → " ++ e)
      | .ok (x, row') =>
          match reconstructGroup rest (idx + n.colCount) lv fs.tail row' with
          | .error e => .error e
          | .ok (xs, row'') => .ok (x :: xs, row'')
  termination_by cs _ _ _ _ => (msizeList cs + 1, 0)
  decreasing_by all_goals (simp_wf; rw [Prod.lex_def]; simp [Node.msize, Content.msize, msizeList, mapPairNode] <;> omega)
end

/-! ### The canonical form produced by a round trip

Assembly cannot distinguish a nil collection from an empty one: every
collection it traverses as present is rebuilt freshly (non-nil), while a
subtree detected as null is zeroed.  `canon n v` is the value the
reconstructor writes when fed the deconstruction of `v`. -/

mutual
def canon : Node → GoValue → GoValue
  | .required c, v => canonContent c v
  | .optional c, v => if v.isZero then v else canonContent c v
  | .repeated c, v =>
      match v with
      | .slice _ elems => .slice false (canonElems c elems)
      | v => v
  termination_by n _ => (sizeOf n, 0)
  decreasing_by all_goals (simp_wf; rw [Prod.lex_def]; simp [mapPairNode] <;> omega)
def canonContent : Content → GoValue → GoValue
  | .leaf, v => v
  | .group cs, v =>
      match v with
      | .strukt fs => .strukt (canonFields cs fs)
      | v => v
  | .list e, v =>
      match v with
      | .slice _ elems => .slice false (canonElems e elems)
      | v => v
  | .mapOf vn, v =>
      match v with
      | .gomap _ entries => .gomap false (canonEntries vn entries)
      | v => v
  termination_by c _ => (sizeOf c, 0)
  decreasing_by all_goals (simp_wf; rw [Prod.lex_def]; simp [mapPairNode] <;> omega)
def canonElems : Content → List GoValue → List GoValue
  | _, [] => []
  | c, e :: rest => canonContent c e :: canonElems c rest
  termination_by c elems => (sizeOf c, 1 + sizeOf elems)
  decreasing_by all_goals (simp_wf; rw [Prod.lex_def]; simp [mapPairNode] <;> omega)
def canonFields : List Node → List GoValue → List GoValue
  | [], _ => []
  | n :: rest, fs => canon n (fs.headD .invalid) :: canonFields rest fs.tail
  termination_by cs _ => (sizeOf cs, 0)
  decreasing_by all_goals (simp_wf; rw [Prod.lex_def]; simp [mapPairNode] <;> omega)
def canonEntries : Node → List (Int × GoValue) → List (Int × GoValue)
  | _, [] => []
  | vn, (k, v) :: rest => (k, canon vn v) :: canonEntries vn rest
  termination_by vn entries => (sizeOf vn, sizeOf entries)
  decreasing_by all_goals (simp_wf; rw [Prod.lex_def]; simp [mapPairNode] <;> omega)
end

/-! ## Predicates used by the claim statements -/

/-- Context condition under which an assembly call sees the row that follows
its own subtree: the following row is empty, or starts at a column outside
the subtree's column range, or carries a repetition level at most `depth`
(the repetition depth surrounding the subtree), so that no repeated loop
inside the subtree mistakes it for a further element. -/
def restOk (idx cc : Nat) (depth : Int) : List Value → Prop
  | [] => True
  | w :: _ => (w.columnIndex < idx ∨ idx + cc ≤ w.columnIndex) ∨ w.repetitionLevel ≤ depth

/-- The prefix of a row consumed by the repeated reconstructor for a leaf
child at column `idx`, stated the way the (amended) spec describes the loop:
the next value is consumed while it sits at column `idx` and its repetition
level equals the current `levels.repetitionLevel`, which is `rl` (the
inherited level) for the first value and `depth` afterwards. -/
def repeatedLeafTaken (idx : Nat) (depth : Int) (rl : Int) : List Value → List Value
  | [] => []
  | w :: rest =>
      if w.columnIndex = idx ∧ w.repetitionLevel = rl then
        w :: repeatedLeafTaken idx depth depth rest
      else []

/-! # Theorems

List helpers first, then per-claim developments. -/

theorem take_set_of_le {α : Type} (l : List α) (i n : Nat) (a : α) (h : n ≤ i) :
    (l.set i a).take n = l.take n := by
  induction l generalizing i n with
  | nil => simp
  | cons x xs ih =>
    cases i with
    | zero => interval_cases n <;> simp_all
    | succ i' =>
      cases n with
      | zero => simp
      | succ n' => simp [List.set, ih i' n' (by omega)]

theorem sum_set_add (l : List Nat) (i : Nat) (a : Nat) (h : i < l.length) :
    (l.set i a).sum + l[i] = l.sum + a := by
  induction l generalizing i with
  | nil => simp at h
  | cons x xs ih =>
    cases i with
    | zero => simp [List.set]; omega
    | succ i' =>
      have := ih i' (by simpa using h)
      simp [List.set]
      omega

theorem listSwap_length {α : Type} [Inhabited α] (l : List α) (i j : Nat) :
    (listSwap l i j).length = l.length := by
  unfold listSwap
  split <;> simp

theorem listSwap_getElem {α : Type} [Inhabited α] (l : List α) (i j k : Nat)
    (hi : i < l.length) (hj : j < l.length) (hk : k < l.length) :
    (listSwap l i j)[k]! =
      if k = j then l[i] else if k = i then l[j] else l[k] := by
  unfold listSwap
  rw [if_pos ⟨hi, hj⟩, getElem!_pos l j hj, getElem!_pos l i hi]
  have hk2 : k < ((l.set i l[j]).set j l[i]).length := by simpa using hk
  have hk3 : k < (l.set i l[j]).length := by simpa using hk
  rw [getElem!_pos ((l.set i l[j]).set j l[i]) k hk2]
  by_cases hkj : k = j
  · subst hkj
    simp [List.getElem_set_self]
  · rw [if_neg hkj]
    have step1 : ((l.set i l[j]).set j l[i])[k] = (l.set i l[j])[k] :=
      List.getElem_set_ne (fun h => hkj h.symm) hk2
    rw [step1]
    by_cases hki : k = i
    · subst hki
      simp [List.getElem_set_self]
    · rw [if_neg hki]
      exact List.getElem_set_ne (fun h => hki h.symm) hk3

theorem sum_listSwap (l : List Nat) (i j : Nat) : (listSwap l i j).sum = l.sum := by
  unfold listSwap
  split
  · rename_i h
    obtain ⟨hi, hj⟩ := h
    rw [getElem!_pos l j hj, getElem!_pos l i hi]
    have hj' : j < (l.set i l[j]).length := by simpa using hj
    have h1 := sum_set_add (l.set i l[j]) j l[i] hj'
    have h2 := sum_set_add l i l[j] hi
    by_cases hij : i = j
    · subst hij
      have h3 : (l.set i l[i])[i] = l[i] := List.getElem_set_self hj'
      omega
    · have h3 : (l.set i l[j])[j] = l[j] := List.getElem_set_ne hij hj'
      omega
  · rfl

theorem listSwap_map {α β : Type} [Inhabited α] [Inhabited β] (f : α → β)
    (l : List α) (i j : Nat) : (listSwap l i j).map f = listSwap (l.map f) i j := by
  unfold listSwap
  by_cases h : i < l.length ∧ j < l.length
  · obtain ⟨hi, hj⟩ := h
    rw [if_pos ⟨hi, hj⟩, if_pos (by simpa using And.intro hi hj)]
    rw [getElem!_pos l j hj, getElem!_pos l i hi,
        getElem!_pos (l.map f) j (by simpa using hj),
        getElem!_pos (l.map f) i (by simpa using hi)]
    simp [List.map_set]
  · rw [if_neg h, if_neg (by simpa using h)]

/-! ## C10: WriteRow never fails -/

/-- C10: `WriteRow` is total and never fails: every flat typed buffer
column's `WriteRow` (boolean, int32, int64, int96, float, double, byteArray
modelled by the generic flat column, and fixedLenByteArray) returns no
error for every input row, and consequently the error-propagation branches
in the optional and repeated wrappers are unreachable, so they too always
return no error. -/
theorem C10_writeRow_total {α : Type} (fcol : FlatCol α) (xcol : FixedLenCol)
    (ocol : OptionalCol α) (rcol : RepeatedCol α) (get : Value → α)
    (bytes : Value → List Int) (row : List Value) :
    (fcol.writeRow get row).2 = none ∧ (xcol.writeRow bytes row).2 = none ∧
      (ocol.writeRow get row).2 = none ∧ (rcol.writeRow get row).2 = none := by
  refine ⟨rfl, rfl, ?_, ?_⟩ <;>
    simp [OptionalCol.writeRow, RepeatedCol.writeRow, FlatCol.writeRow]

/-! ## C7: Swap exchanges only the two regions -/

/-- C7: `repeatedBufferColumn.Swap(i, j)` exchanges only the region entries
`rows[i]` and `rows[j]`: the repetition-level array, the definition-level
array and the base buffer's stored values are unchanged, and every other
region entry is unchanged. -/
theorem C7_swap_frame {α : Type} (col : RepeatedCol α) (i j k : Nat)
    (hi : i < col.rows.length) (hj : j < col.rows.length) :
    (col.swap i j).base = col.base ∧
    (col.swap i j).repetitionLevels = col.repetitionLevels ∧
    (col.swap i j).definitionLevels = col.definitionLevels ∧
    (col.swap i j).rows.length = col.rows.length ∧
    (col.swap i j).rows[i]! = col.rows[j]! ∧
    (col.swap i j).rows[j]! = col.rows[i]! ∧
    (k < col.rows.length → k ≠ i → k ≠ j →
      (col.swap i j).rows[k]! = col.rows[k]!) := by
  refine ⟨rfl, rfl, rfl, ?_, ?_, ?_, ?_⟩
  · exact listSwap_length col.rows i j
  · show (listSwap col.rows i j)[i]! = col.rows[j]!
    rw [listSwap_getElem col.rows i j i hi hj hi, getElem!_pos col.rows j hj]
    by_cases hij : i = j
    · subst hij; simp
    · rw [if_neg hij, if_pos rfl]
  · show (listSwap col.rows i j)[j]! = col.rows[i]!
    rw [listSwap_getElem col.rows i j j hi hj hj, getElem!_pos col.rows i hi, if_pos rfl]
  · intro hk hki hkj
    show (listSwap col.rows i j)[k]! = col.rows[k]!
    rw [listSwap_getElem col.rows i j k hi hj hk, getElem!_pos col.rows k hk,
        if_neg hkj, if_neg hki]

/-- Witness for C7 at a concrete column. -/
theorem C7_swap_frame_witness :
    let col : RepeatedCol Int :=
      ⟨⟨[1, 2, 3]⟩, 1, 1, [⟨0, 1⟩, ⟨1, 1⟩, ⟨2, 1⟩], [0, 0, 0], [1, 1, 1]⟩
    (col.swap 0 1).base = col.base ∧
    (col.swap 0 1).repetitionLevels = col.repetitionLevels ∧
    (col.swap 0 1).definitionLevels = col.definitionLevels ∧
    (col.swap 0 1).rows.length = col.rows.length ∧
    (col.swap 0 1).rows[0]! = col.rows[1]! ∧
    (col.swap 0 1).rows[1]! = col.rows[0]! ∧
    (2 < col.rows.length → 2 ≠ 0 → 2 ≠ 1 →
      (col.swap 0 1).rows[2]! = col.rows[2]!) := by
  exact C7_swap_frame _ 0 1 2 (by simp) (by simp)

/-! ## C8: the repeated-buffer invariant -/

/-- C8: the invariant "sum of region lengths = length of repetitionLevels =
length of definitionLevels" holds after construction, is preserved by
`WriteRow`, `Swap` and `Reset`, and holds of the copy produced by
`Clone`. -/
theorem C8_invariant {α : Type} (maxR maxD : Int) (col : RepeatedCol α)
    (get : Value → α) (row : List Value) (i j : Nat) (h : col.inv) :
    (RepeatedCol.new maxR maxD : RepeatedCol α).inv ∧
      (col.writeRow get row).1.inv ∧ (col.swap i j).inv ∧
      col.reset.inv ∧ col.clone.inv := by
  obtain ⟨h1, h2⟩ := h
  refine ⟨⟨rfl, rfl⟩, ?_, ?_, ⟨rfl, rfl⟩, ⟨h1, h2⟩⟩
  · simp only [RepeatedCol.writeRow, FlatCol.writeRow, RepeatedCol.inv, RepeatedCol.mkRow]
    constructor
    · simp [h1]
    · simp [h2]
  · refine ⟨?_, h2⟩
    simp only [RepeatedCol.swap, listSwap_map]
    rw [sum_listSwap]
    exact h1

/-- Witness for C8 at a concrete column satisfying the invariant. -/
theorem C8_invariant_witness :
    let col : RepeatedCol Int := ⟨⟨[7, 8]⟩, 1, 1, [⟨0, 2⟩], [0, 1], [1, 1]⟩
    col.inv ∧
    ((RepeatedCol.new 1 1 : RepeatedCol Int).inv ∧
      (col.writeRow (·.payload) [⟨9, false, 0, 0, 1⟩]).1.inv ∧
      (col.swap 0 0).inv ∧ col.reset.inv ∧ col.clone.inv) := by
  refine ⟨⟨rfl, rfl⟩, C8_invariant 1 1 _ _ _ 0 0 ⟨rfl, rfl⟩⟩

/-! ## C4: null compaction is not idempotent (code bug) -/

/-- C4 (code bug): the claim asserts `Page()` is idempotent on an unchanged
optional buffer, but the null-compaction pass inside `Page()` mutates the
base by swapping each non-null value to the front while the definition
levels stay put.  On the buffer holding rows `[null, 42]` (definition
levels `[0, 1]`, max 1) the first `Page()` returns values `[42]` and leaves
the base as `[42, 0]`; the second `Page()` swaps again and returns `[0]`:
the 42 is lost.  This theorem evaluates the model at that failing input. -/
theorem C4_page_not_idempotent :
    ((⟨⟨[0, 42]⟩, 1, [0, 1]⟩ : OptionalCol Int).page.2 = ([42], [0, 1])) ∧
    ((⟨⟨[0, 42]⟩, 1, [0, 1]⟩ : OptionalCol Int).page.1.page.2 = ([0], [0, 1])) ∧
    ((⟨⟨[0, 42]⟩, 1, [0, 1]⟩ : OptionalCol Int).page.1.page.2 ≠
      (⟨⟨[0, 42]⟩, 1, [0, 1]⟩ : OptionalCol Int).page.2) := by
  refine ⟨?_, ?_, ?_⟩ <;>
    simp [OptionalCol.page, pageWithoutNulls, compactLoop, skipNulls, isNull, listSwap]

/-! ## C6: ReadRowAt bounds behavior -/

/-- C6: for every buffer column (flat typed — covering the boolean, int32,
int64, int96, float, double and byteArray columns, whose `ReadRowAt` bodies
are identical up to the payload type —, fixed-length byte array, optional
and repeated), `ReadRowAt` with a negative index returns the
index-out-of-bounds error, `ReadRowAt` at or beyond the number of stored
rows returns the `io.EOF` end-of-stream signal (which is not the bounds
error), and on a flat buffer a valid in-range index appends exactly one
value holding the indexed payload and returns no error.  For the
fixed-length column, `k` is its number of stored rows (its byte buffer
holds `size * k` bytes) and its declared size is positive. -/
theorem C6_readRowAt_bounds {α : Type} [Inhabited α] (mk : α → Value)
    (fcol : FlatCol α) (ocol : OptionalCol α) (rcol : RepeatedCol α)
    (xcol : FixedLenCol) (row : List Value) (index : Int) (k : Nat) :
    (index < 0 →
      fcol.readRowAt mk row index = (row, some errRowIndexOutOfBounds) ∧
      ocol.readRowAt mk row index = (row, some errRowIndexOutOfBounds) ∧
      rcol.readRowAt mk row index = (row, some errRowIndexOutOfBounds) ∧
      (0 < xcol.size → xcol.readRowAt row index = (row, some errRowIndexOutOfBounds))) ∧
    (0 ≤ index →
      ((fcol.values.length : Int) ≤ index →
        fcol.readRowAt mk row index = (row, some errEOF)) ∧
      ((ocol.definitionLevels.length : Int) ≤ index →
        ocol.readRowAt mk row index = (row, some errEOF)) ∧
      ((rcol.rows.length : Int) ≤ index →
        rcol.readRowAt mk row index = (row, some errEOF)) ∧
      (0 < xcol.size → xcol.data.length = xcol.size * k → (k : Int) ≤ index →
        xcol.readRowAt row index = (row, some errEOF))) ∧
    errEOF ≠ errRowIndexOutOfBounds ∧
    (0 ≤ index → index < (fcol.values.length : Int) →
      fcol.readRowAt mk row index = (row ++ [mk fcol.values[index.toNat]!], none)) := by
  refine ⟨?_, ?_, by decide, ?_⟩
  · intro hneg
    refine ⟨?_, ?_, ?_, ?_⟩
    · simp only [FlatCol.readRowAt, if_pos hneg]
    · simp only [OptionalCol.readRowAt, if_pos hneg]
    · simp only [RepeatedCol.readRowAt, if_pos hneg]
    · intro hsz
      have hi : (index + 0) * (xcol.size : Int) < 0 :=
        mul_neg_of_neg_of_pos (by omega) (by exact_mod_cast hsz)
      simp only [FixedLenCol.readRowAt, if_pos hi]
  · intro hpos
    refine ⟨?_, ?_, ?_, ?_⟩
    · intro hge
      simp only [FlatCol.readRowAt]
      rw [if_neg (show ¬ index < 0 by omega),
          if_pos (show index ≥ (fcol.values.length : Int) from hge)]
    · intro hge
      simp only [OptionalCol.readRowAt]
      rw [if_neg (show ¬ index < 0 by omega),
          if_pos (show index ≥ (ocol.definitionLevels.length : Int) from hge)]
    · intro hge
      simp only [RepeatedCol.readRowAt]
      rw [if_neg (show ¬ index < 0 by omega),
          if_pos (show index ≥ (rcol.rows.length : Int) from hge)]
    · intro hsz hlen hge
      have hszI : (0 : Int) < (xcol.size : Int) := by exact_mod_cast hsz
      have hi : ¬ (index + 0) * (xcol.size : Int) < 0 := by
        have := mul_nonneg (by omega : (0:Int) ≤ index + 0) (le_of_lt hszI)
        omega
      have hj : (index + 1) * (xcol.size : Int) > (xcol.data.length : Int) := by
        have hcast : (xcol.data.length : Int) = (xcol.size : Int) * (k : Int) := by
          rw [hlen]; push_cast; ring
        have hk1 : (k : Int) < index + 1 := by omega
        have := mul_lt_mul_of_pos_right hk1 hszI
        rw [hcast]
        nlinarith
      simp only [FixedLenCol.readRowAt, if_neg hi, if_pos hj]
  · intro hpos hlt
    simp only [FlatCol.readRowAt]
    rw [if_neg (show ¬ index < 0 by omega),
        if_neg (show ¬ index ≥ (fcol.values.length : Int) by omega)]

/-- Witness for C6 at concrete columns and indexes. -/
theorem C6_readRowAt_bounds_witness :
    ((-1 : Int) < 0 ∧ (0 : Int) ≤ 2 ∧ (0 : Int) ≤ 0 ∧ (0 : Int) < 1) ∧
    ((FlatCol.readRowAt (⟨[5]⟩ : FlatCol Int) (fun n => ⟨n, false, 0, 0, 0⟩) [] (-1) =
        ([], some errRowIndexOutOfBounds)) ∧
     (FlatCol.readRowAt (⟨[5]⟩ : FlatCol Int) (fun n => ⟨n, false, 0, 0, 0⟩) [] 2 =
        ([], some errEOF)) ∧
     (FlatCol.readRowAt (⟨[5]⟩ : FlatCol Int) (fun n => ⟨n, false, 0, 0, 0⟩) [] 0 =
        ([⟨5, false, 0, 0, 0⟩], none))) := by
  have h := C6_readRowAt_bounds (fun n => ⟨n, false, 0, 0, 0⟩)
    (⟨[5]⟩ : FlatCol Int) (⟨⟨[]⟩, 1, []⟩ : OptionalCol Int)
    (RepeatedCol.new 1 1) (⟨1, []⟩ : FixedLenCol) [] (-1) 0
  have h2 := C6_readRowAt_bounds (fun n => ⟨n, false, 0, 0, 0⟩)
    (⟨[5]⟩ : FlatCol Int) (⟨⟨[]⟩, 1, []⟩ : OptionalCol Int)
    (RepeatedCol.new 1 1) (⟨1, []⟩ : FixedLenCol) [] 2 0
  have h3 := C6_readRowAt_bounds (fun n => ⟨n, false, 0, 0, 0⟩)
    (⟨[5]⟩ : FlatCol Int) (⟨⟨[]⟩, 1, []⟩ : OptionalCol Int)
    (RepeatedCol.new 1 1) (⟨1, []⟩ : FixedLenCol) [] 0 0
  refine ⟨by norm_num, ?_, ?_, ?_⟩
  · exact (h.1 (by norm_num)).1
  · exact (h2.2.1 (by norm_num)).1 (by norm_num)
  · have := h3.2.2.2 (by norm_num) (by norm_num)
    simpa using this

/-! ## C9: repeated ReadRowAt is atomic on failure -/

theorem repReadLoop_error_restores {α : Type} [Inhabited α] (base : FlatCol α)
    (mk : α → Value) (maxD : Int) (offset : Nat) (row0 : List Value) :
    ∀ (pairs : List (Int × Int)) (i : Nat) (cur : List Value),
      row0.length ≤ cur.length → cur.take row0.length = row0 →
      (repReadLoop base mk maxD offset row0.length pairs i cur).2.isSome →
      (repReadLoop base mk maxD offset row0.length pairs i cur).1 = row0 := by
  intro pairs
  induction pairs with
  | nil =>
    intro i cur _ _ hsome
    simp [repReadLoop] at hsome
  | cons p rest ih =>
    intro i cur hlen htake hsome
    obtain ⟨rl, dl⟩ := p
    by_cases hdl : dl ≠ maxD
    · rw [repReadLoop, if_pos hdl] at hsome ⊢
      refine ih (i + 1) _ (by simp; omega) ?_ hsome
      rw [List.take_append_of_le_length hlen, htake]
    · rw [repReadLoop, if_neg hdl] at hsome ⊢
      simp only [FlatCol.readRowAt] at hsome ⊢
      rw [if_neg (show ¬ ((offset + i : Nat) : Int) < 0 by omega)] at hsome ⊢
      by_cases heof : ((offset + i : Nat) : Int) ≥ (base.values.length : Int)
      · rw [if_pos heof] at hsome ⊢
        dsimp only at hsome ⊢
        simpa using htake
      · rw [if_neg heof] at hsome ⊢
        dsimp only at hsome ⊢
        have hlen1 : ¬ cur.length =
            (cur ++ [mk base.values[((offset + i : Nat) : Int).toNat]!]).length := by
          simp
        have hlen2 : ¬ cur.length ≠
            (cur ++ [mk base.values[((offset + i : Nat) : Int).toNat]!]).length - 1 := by
          simp
        rw [if_neg hlen1, if_neg hlen2] at hsome ⊢
        refine ih (i + 1) _ (by simp; omega) ?_ hsome
        rw [take_set_of_le _ _ _ _ (by omega),
            List.take_append_of_le_length hlen, htake]

/-- C9: whenever `repeatedBufferColumn.ReadRowAt` returns an error — bounds
error, end of stream, base read failure, or a cardinality mismatch — the
returned row equals the input row with every partially appended value
truncated away, so a failed read leaves the caller's row unchanged. -/
theorem C9_read_atomic {α : Type} [Inhabited α] (col : RepeatedCol α)
    (mk : α → Value) (row : List Value) (index : Int)
    (h : (col.readRowAt mk row index).2.isSome) :
    (col.readRowAt mk row index).1 = row := by
  unfold RepeatedCol.readRowAt at h ⊢
  by_cases hneg : index < 0
  · rw [if_pos hneg]
  · rw [if_neg hneg] at h ⊢
    by_cases heof : index ≥ (col.rows.length : Int)
    · rw [if_pos heof]
    · rw [if_neg heof] at h ⊢
      exact repReadLoop_error_restores col.base mk col.maxDefinitionLevel _ row _ 0 row
        (le_refl _) (List.take_length row) h

/-- Witness for C9: a region pointing past the empty base forces the base
read to fail with end of stream; the caller's row comes back unchanged. -/
theorem C9_read_atomic_witness :
    (((⟨⟨[]⟩, 1, 1, [⟨0, 1⟩], [0], [1]⟩ : RepeatedCol Int).readRowAt
        (fun n => ⟨n, false, 0, 0, 0⟩) [⟨9, false, 0, 0, 0⟩] 0).2.isSome = true) ∧
    ((⟨⟨[]⟩, 1, 1, [⟨0, 1⟩], [0], [1]⟩ : RepeatedCol Int).readRowAt
        (fun n => ⟨n, false, 0, 0, 0⟩) [⟨9, false, 0, 0, 0⟩] 0).1 = [⟨9, false, 0, 0, 0⟩] := by
  constructor
  · simp [RepeatedCol.readRowAt, repReadLoop, FlatCol.readRowAt]
  · exact C9_read_atomic _ _ _ _ (by simp [RepeatedCol.readRowAt, repReadLoop, FlatCol.readRowAt])

/-! ## C3: the concrete repeated-int32 row -/

/-- C3: for the schema with one repeated int32 field, deconstructing the
record whose field holds `[10, 20, 30]` from the all-zero levels produces
exactly the three-value row: the first element keeps the inherited
repetition level 0 and the later elements carry repetition level 1 (the
repetition depth), all at definition level 1, all in column 0. -/
theorem C3_repeated_int32_row :
    deconstruct (.required (.group [.repeated .leaf])) 0 Levels.start
      (.strukt [.slice false [.prim 10, .prim 20, .prim 30]]) =
      [⟨10, false, 0, 0, 1⟩, ⟨20, false, 0, 1, 1⟩, ⟨30, false, 0, 1, 1⟩] := by
  simp [deconstruct, deconstructGroup, deconstructElems, Levels.start]

/-! ## C5: the column-count bound -/

theorem colCount_mapPairNode (vn : Node) :
    (mapPairNode vn).colCount = 1 + vn.colCount := by
  simp [mapPairNode, Node.colCount, Content.colCount, colCountList]

theorem wf_mapPairNode (vn : Node) (h : vn.wf = true) :
    (mapPairNode vn).wf = true := by
  simp [mapPairNode, Node.wf, Content.wf, wfList, h]

theorem wfGroup_elim {cs : List Node} (h : (Content.group cs).wf = true) :
    wfList cs = true ∧ cs ≠ [] := by
  cases cs with
  | nil => simp [Content.wf, List.isEmpty] at h
  | cons a l =>
      rw [Content.wf] at h
      simp only [Bool.and_eq_true] at h
      exact ⟨h.2, by simp⟩

theorem wfCons_elim {n : Node} {rest : List Node} (h : wfList (n :: rest) = true) :
    n.wf = true ∧ wfList rest = true := by
  rw [wfList] at h
  simpa [Bool.and_eq_true] using h

mutual
theorem colCount_pos : ∀ (n : Node), n.wf = true → 1 ≤ n.colCount
  | .required c, h => by
      rw [Node.wf] at h
      rw [Node.colCount]
      exact colCount_pos_content c h
  | .optional c, h => by
      rw [Node.wf] at h
      rw [Node.colCount]
      exact colCount_pos_content c h
  | .repeated c, h => by
      rw [Node.wf] at h
      rw [Node.colCount]
      exact colCount_pos_content c h
  termination_by n _ => (n.msize, 0)
  decreasing_by all_goals (simp_wf; rw [Prod.lex_def]; simp [Node.msize, Content.msize, msizeList, mapPairNode] <;> omega)
theorem colCount_pos_content : ∀ (c : Content), c.wf = true → 1 ≤ c.colCount
  | .leaf, _ => by simp [Content.colCount]
  | .group cs, h => by
      obtain ⟨h1, h2⟩ := wfGroup_elim h
      rw [Content.colCount]
      exact colCountList_pos cs h1 h2
  | .list e, h => by
      rw [Content.wf] at h
      rw [Content.colCount]
      exact colCount_pos_content e h
  | .mapOf vn, _ => by
      rw [Content.colCount]
      omega
  termination_by c _ => (c.msize, 0)
  decreasing_by all_goals (simp_wf; rw [Prod.lex_def]; simp [Node.msize, Content.msize, msizeList, mapPairNode] <;> omega)
theorem colCountList_pos : ∀ (cs : List Node), wfList cs = true → cs ≠ [] →
    1 ≤ colCountList cs
  | [], _, hne => absurd rfl hne
  | n :: rest, h, _ => by
      have h1 := (wfCons_elim h).1
      have := colCount_pos n h1
      rw [colCountList]
      omega
  termination_by cs _ _ => (msizeList cs, 0)
  decreasing_by all_goals (simp_wf; rw [Prod.lex_def]; simp [Node.msize, Content.msize, msizeList, mapPairNode] <;> omega)
end

mutual
theorem deconstructFuncOf_eq : ∀ (n : Node) (idx : Nat), n.wf = true →
    deconstructFuncOf idx n =
      if idx + n.colCount ≤ 128 then .ok (idx + n.colCount)
      else .error columnOverflowPanic
  | .optional c, idx, h => by
      rw [Node.wf] at h
      rw [deconstructFuncOf,
          deconstructFuncOf_eq (.required c) idx (by rw [Node.wf]; exact h)]
      simp only [Node.colCount]
  | .repeated c, idx, h => by
      rw [Node.wf] at h
      rw [deconstructFuncOf,
          deconstructFuncOf_eq (.required c) idx (by rw [Node.wf]; exact h)]
      simp only [Node.colCount]
  | .required .leaf, idx, _ => by
      rw [deconstructFuncOf]
      simp only [Node.colCount, Content.colCount, MaxColumnIndex]
      split_ifs <;> first | rfl | omega
  | .required (.group cs), idx, h => by
      rw [Node.wf] at h
      obtain ⟨h1, h2⟩ := wfGroup_elim h
      rw [deconstructFuncOf, (deconstructFuncOfGroup_eq cs idx h1).2 h2]
      simp only [Node.colCount, Content.colCount]
  | .required (.list e), idx, h => by
      rw [Node.wf] at h
      rw [Content.wf] at h
      rw [deconstructFuncOf,
          deconstructFuncOf_eq (.repeated e) idx (by rw [Node.wf]; exact h)]
      simp only [Node.colCount, Content.colCount]
  | .required (.mapOf vn), idx, h => by
      rw [Node.wf] at h
      rw [Content.wf] at h
      rw [deconstructFuncOf,
          deconstructFuncOf_eq (mapPairNode vn) idx (wf_mapPairNode vn h),
          colCount_mapPairNode]
      simp only [Node.colCount, Content.colCount]
  termination_by n _ _ => (n.msize, 0)
  decreasing_by all_goals (simp_wf; rw [Prod.lex_def]; simp [Node.msize, Content.msize, msizeList, mapPairNode] <;> omega)
theorem deconstructFuncOfGroup_eq : ∀ (cs : List Node) (idx : Nat), wfList cs = true →
    (cs = [] → deconstructFuncOfGroup idx cs = .ok idx) ∧
    (cs ≠ [] → deconstructFuncOfGroup idx cs =
      if idx + colCountList cs ≤ 128 then .ok (idx + colCountList cs)
      else .error columnOverflowPanic)
  | [], idx, _ => by
      refine ⟨fun _ => ?_, fun hne => absurd rfl hne⟩
      rw [deconstructFuncOfGroup]
  | n :: rest, idx, h => by
      obtain ⟨h1, h2⟩ := wfCons_elim h
      refine ⟨fun heq => absurd heq (by simp), fun _ => ?_⟩
      rw [deconstructFuncOfGroup, deconstructFuncOf_eq n idx h1]
      by_cases hc : idx + n.colCount ≤ 128
      · rw [if_pos hc]
        dsimp only
        by_cases hr : rest = []
        · subst hr
          rw [deconstructFuncOfGroup]
          rw [colCountList, colCountList]
          rw [if_pos (by omega)]
          simp only [Except.ok.injEq]
          omega
        · rw [(deconstructFuncOfGroup_eq rest (idx + n.colCount) h2).2 hr]
          rw [colCountList]
          split_ifs
          · simp only [Except.ok.injEq]
            omega
          · omega
          · omega
          · rfl
      · rw [if_neg hc]
        dsimp only
        rw [colCountList]
        rw [if_neg (by omega)]
  termination_by cs _ _ => (msizeList cs + 1, 0)
  decreasing_by all_goals (simp_wf; rw [Prod.lex_def]; simp [Node.msize, Content.msize, msizeList, mapPairNode] <;> omega)
end

mutual
theorem leafIndexes_eq : ∀ (n : Node) (idx : Nat),
    leafIndexes idx n = List.range' idx n.colCount
  | .optional c, idx => by
      rw [leafIndexes]
      exact leafIndexes_eq (.required c) idx
  | .repeated c, idx => by
      rw [leafIndexes]
      exact leafIndexes_eq (.required c) idx
  | .required .leaf, idx => by
      rw [leafIndexes]
      simp [Node.colCount, Content.colCount, List.range'_one]
  | .required (.group cs), idx => by
      rw [leafIndexes]
      rw [leafIndexesGroup_eq cs idx]
      rfl
  | .required (.list e), idx => by
      rw [leafIndexes]
      exact leafIndexes_eq (.repeated e) idx
  | .required (.mapOf vn), idx => by
      rw [leafIndexes]
      rw [leafIndexes_eq (mapPairNode vn) idx, colCount_mapPairNode]
      rfl
  termination_by n _ => (n.msize, 0)
  decreasing_by all_goals (simp_wf; rw [Prod.lex_def]; simp [Node.msize, Content.msize, msizeList, mapPairNode] <;> omega)
theorem leafIndexesGroup_eq : ∀ (cs : List Node) (idx : Nat),
    leafIndexesGroup idx cs = List.range' idx (colCountList cs)
  | [], idx => by
      rw [leafIndexesGroup]
      simp [colCountList]
  | n :: rest, idx => by
      rw [leafIndexesGroup, leafIndexes_eq n idx,
          leafIndexesGroup_eq rest (idx + n.colCount)]
      have h := List.range'_append idx n.colCount (colCountList rest) 1
      simp only [one_mul] at h
      rw [colCountList, Nat.add_comm n.colCount (colCountList rest)]
      exact h
  termination_by cs _ => (msizeList cs + 1, 0)
  decreasing_by all_goals (simp_wf; rw [Prod.lex_def]; simp [Node.msize, Content.msize, msizeList, mapPairNode] <;> omega)
end

theorem colCountList_replicate (k : Nat) :
    colCountList (List.replicate k (.required .leaf)) = k := by
  induction k with
  | zero => simp [colCountList]
  | succ k ih =>
      simp [List.replicate, colCountList, ih, Node.colCount, Content.colCount]
      omega

theorem wfList_replicate (k : Nat) :
    wfList (List.replicate k (.required .leaf)) = true := by
  induction k with
  | zero => simp [wfList]
  | succ k ih => simp [List.replicate, wfList, ih, Node.wf, Content.wf]

/-- C5 counterexample: a flat schema with exactly 128 leaf columns has more
than 127 leaf columns, yet its compilation succeeds (`.ok 128`), refuting
the claim's clause that compiling a schema with more than 127 leaf columns
fails. -/
theorem C5_counterexample :
    127 < (Node.required (.group (List.replicate 128 (.required .leaf)))).colCount ∧
    deconstructFuncOf 0 (.required (.group (List.replicate 128 (.required .leaf)))) =
      .ok 128 := by
  have hcc : (Node.required (.group (List.replicate 128 (.required .leaf)))).colCount = 128 := by
    simp only [Node.colCount, Content.colCount]
    exact colCountList_replicate 128
  constructor
  · omega
  · have hwf : (Node.required (.group (List.replicate 128 (.required .leaf)))).wf = true := by
      simp only [Node.wf, Content.wf, Bool.and_eq_true]
      refine ⟨by simp, wfList_replicate 128⟩
    rw [deconstructFuncOf_eq _ 0 hwf, hcc]
    norm_num

/-- C5 (amended): compiling a well-formed schema with more than 128 leaf
columns panics at compile time with the overflow diagnostic and produces no
partial result, while compiling any well-formed schema with at most 128
leaf columns succeeds, assigning every leaf a unique column index in
[0, 127] (the indexes are exactly 0, 1, ..., colCount-1). -/
theorem C5_compile_bounds (S : Node) (h : S.wf = true) :
    (128 < S.colCount → deconstructFuncOf 0 S = .error columnOverflowPanic) ∧
    (S.colCount ≤ 128 →
      deconstructFuncOf 0 S = .ok S.colCount ∧
      leafIndexes 0 S = List.range S.colCount ∧
      (leafIndexes 0 S).Nodup ∧ ∀ i ∈ leafIndexes 0 S, i ≤ 127) := by
  constructor
  · intro hover
    rw [deconstructFuncOf_eq S 0 h]
    rw [if_neg (by omega)]
  · intro hle
    refine ⟨?_, ?_, ?_, ?_⟩
    · rw [deconstructFuncOf_eq S 0 h, if_pos (by omega)]
      norm_num
    · rw [leafIndexes_eq S 0, List.range_eq_range']
    · rw [leafIndexes_eq S 0]
      apply List.nodup_range'
      norm_num
    · intro i hi
      rw [leafIndexes_eq S 0, List.mem_range'] at hi
      omega

/-- Witness for C5 at a concrete two-column schema. -/
theorem C5_compile_bounds_witness :
    ((Node.required (.group [.optional .leaf, .repeated .leaf])).wf = true) ∧
    ((Node.required (.group [.optional .leaf, .repeated .leaf])).colCount ≤ 128 ∧
      deconstructFuncOf 0 (.required (.group [.optional .leaf, .repeated .leaf])) =
        .ok (Node.required (.group [.optional .leaf, .repeated .leaf])).colCount ∧
      leafIndexes 0 (.required (.group [.optional .leaf, .repeated .leaf])) =
        List.range (Node.required (.group [.optional .leaf, .repeated .leaf])).colCount ∧
      (leafIndexes 0 (.required (.group [.optional .leaf, .repeated .leaf]))).Nodup ∧
      ∀ i ∈ leafIndexes 0 (.required (.group [.optional .leaf, .repeated .leaf])), i ≤ 127) := by
  have hwf : (Node.required (.group [.optional .leaf, .repeated .leaf])).wf = true := by
    simp [Node.wf, Content.wf, wfList]
  have hcc : (Node.required (.group [.optional .leaf, .repeated .leaf])).colCount ≤ 128 := by
    simp [Node.colCount, Content.colCount, colCountList]
  exact ⟨hwf, hcc, (C5_compile_bounds _ hwf).2 hcc⟩

/-! ## C2: the repeated reconstructor's loop condition -/

/-- C2 counterexample: the claim says the loop consumes a value only while
its repetition level equals the current `repetitionDepth`, and in particular
that the first element is consumed only if its repetition level equals
`repetitionDepth`.  Reconstructing the repeated-leaf row `[col 0, R 0, D 1,
payload 10]` from the all-zero levels, `repetitionDepth` inside the call is
`0 + 1 = 1` while the first value carries repetition level `0`; the code
nevertheless consumes it (the loop compares against `levels.repetitionLevel`,
which is the inherited `0`), producing the one-element slice. -/
theorem C2_counterexample :
    ((([⟨10, false, 0, 0, 1⟩] : List Value).headD Value.nullValue).repetitionLevel = 0) ∧
    (Levels.start.repetitionDepth + 1 = 1) ∧ ((0 : Int) ≠ 1) ∧
    reconstruct (.repeated .leaf) 0 Levels.start (Node.repeated .leaf).zero
      [⟨10, false, 0, 0, 1⟩] = .ok (.slice false [.prim 10], []) := by
  refine ⟨rfl, rfl, by norm_num, ?_⟩
  simp [reconstruct, reconstructRepeatedLoop, Levels.start, Node.zero, Content.zero,
        startsWithCol, Node.colCount, Content.colCount]

/-- The loop of `reconstructFuncOfRepeated`, specialised to a leaf child,
consumes exactly the `repeatedLeafTaken` prefix: the first value is
consumed when its repetition level equals the incoming
`levels.repetitionLevel`, and each later value while it still sits at this
column with repetition level equal to `repetitionDepth` (the level the loop
assigns after every iteration). -/
theorem reconstructRepeatedLoop_leaf_eq (idx : Nat) :
    ∀ (row : List Value) (lv : Levels) (acc : List GoValue) (fuel : Nat),
      row.length ≤ fuel →
      reconstructRepeatedLoop .leaf idx lv fuel acc row =
        .ok (.slice false (acc ++
              (repeatedLeafTaken idx lv.repetitionDepth lv.repetitionLevel row).map
                (fun w => .prim w.payload)),
             row.drop
              (repeatedLeafTaken idx lv.repetitionDepth lv.repetitionLevel row).length) := by
  intro row
  induction row with
  | nil =>
    intro lv acc fuel _
    rw [reconstructRepeatedLoop.eq_def]
    dsimp only
    rw [if_neg (by simp [startsWithCol])]
    simp [repeatedLeafTaken]
  | cons w rest ih =>
    intro lv acc fuel hfuel
    by_cases hcond : w.columnIndex = idx ∧ w.repetitionLevel = lv.repetitionLevel
    · rw [reconstructRepeatedLoop.eq_def]
      dsimp only
      rw [if_pos (by simp [startsWithCol, hcond.1, hcond.2])]
      cases fuel with
      | zero => simp at hfuel
      | succ f =>
        dsimp only
        rw [reconstruct]
        rw [if_neg (by simpa using hcond.1)]
        dsimp only
        rw [ih { lv with repetitionLevel := lv.repetitionDepth }
            (acc ++ [GoValue.prim w.payload]) f (by simpa using hfuel)]
        rw [repeatedLeafTaken, if_pos hcond]
        simp
    · rw [reconstructRepeatedLoop.eq_def]
      dsimp only
      rw [if_neg (by simpa [startsWithCol] using hcond)]
      rw [repeatedLeafTaken, if_neg hcond]
      simp

/-- C2 (amended): when the reconstructor for a repeated leaf field takes
the non-null branch, it repeatedly invokes the child exactly while the
remaining row still starts at this column and the next value's repetition
level equals the current `levels.repetitionLevel` — which is the inherited
repetition level for the first element and `repetitionDepth` for all later
ones, because the loop sets `levels.repetitionLevel = repetitionDepth`
after each iteration.  In particular the first element is consumed iff its
repetition level equals the inherited level, not `repetitionDepth`. -/
theorem C2_repeated_leaf_loop (idx : Nat) (lv : Levels) (b : Bool)
    (elems : List GoValue) (row : List Value)
    (hstart : startsWithCol idx row = true)
    (hnn : lv.definitionLevel + 1 ≤ (row.headD Value.nullValue).definitionLevel) :
    reconstruct (.repeated .leaf) idx lv (.slice b elems) row =
      .ok (.slice false
            ((repeatedLeafTaken idx (lv.repetitionDepth + 1)
                lv.repetitionLevel row).map (fun w => .prim w.payload)),
           row.drop
            (repeatedLeafTaken idx (lv.repetitionDepth + 1)
                lv.repetitionLevel row).length) := by
  have hne : row ≠ [] := by
    intro h
    rw [h] at hstart
    simp [startsWithCol] at hstart
  rw [reconstruct]
  rw [if_neg (by simp [hstart])]
  rw [if_neg (by
    simp only [Content.colCount]
    cases row with
    | nil => exact absurd rfl hne
    | cons a l => simp)]
  rw [if_neg (by dsimp only; omega)]
  have h := reconstructRepeatedLoop_leaf_eq idx row
    { lv with definitionLevel := lv.definitionLevel + 1,
              repetitionDepth := lv.repetitionDepth + 1 }
    [] row.length (le_refl _)
  simpa using h

/-- Witness for C2's amended theorem at the three-element repeated-int32
row of C3. -/
theorem C2_repeated_leaf_loop_witness :
    (startsWithCol 0 [⟨10, false, 0, 0, 1⟩, ⟨20, false, 0, 1, 1⟩, ⟨30, false, 0, 1, 1⟩] = true) ∧
    (Levels.start.definitionLevel + 1 ≤
      (([⟨10, false, 0, 0, 1⟩, ⟨20, false, 0, 1, 1⟩, ⟨30, false, 0, 1, 1⟩] :
          List Value).headD Value.nullValue).definitionLevel) ∧
    reconstruct (.repeated .leaf) 0 Levels.start (.slice true [])
        [⟨10, false, 0, 0, 1⟩, ⟨20, false, 0, 1, 1⟩, ⟨30, false, 0, 1, 1⟩] =
      .ok (.slice false [.prim 10, .prim 20, .prim 30], []) := by
  refine ⟨rfl, by norm_num [Levels.start], ?_⟩
  have h := C2_repeated_leaf_loop 0 Levels.start true []
    [⟨10, false, 0, 0, 1⟩, ⟨20, false, 0, 1, 1⟩, ⟨30, false, 0, 1, 1⟩]
    rfl (by norm_num [Levels.start])
  simpa [repeatedLeafTaken, Levels.start] using h

/-! ## C1: the round-trip law

The development below establishes what a full deconstruct/reconstruct round
trip returns: the canonical form `canon n v` of the record.  The helper
lemmas characterise the head value, the length, and the invalid
(all-null) form of a deconstruction. -/

theorem headD_append {α : Type} (l1 l2 : List α) (d : α) (h : l1 ≠ []) :
    (l1 ++ l2).headD d = l1.headD d := by
  cases l1 with
  | nil => exact absurd rfl h
  | cons a t => simp

theorem startsWithCol_append {idx : Nat} {l1 l2 : List Value}
    (h1 : l1 ≠ []) (h2 : (l1.headD Value.nullValue).columnIndex = idx) :
    startsWithCol idx (l1 ++ l2) = true := by
  cases l1 with
  | nil => exact absurd rfl h1
  | cons w t =>
      simp only [List.headD_cons] at h2
      simp [startsWithCol, h2]

theorem restOk_mono_cc {idx cc cc' : Nat} {d : Int} {rest : List Value}
    (h : restOk idx cc d rest) (hle : cc' ≤ cc) : restOk idx cc' d rest := by
  cases rest with
  | nil => trivial
  | cons w t =>
      rw [restOk] at h ⊢
      omega

theorem restOk_mono_depth {idx cc : Nat} {d d' : Int} {rest : List Value}
    (h : restOk idx cc d rest) (hle : d ≤ d') : restOk idx cc d' rest := by
  cases rest with
  | nil => trivial
  | cons w t =>
      rw [restOk] at h ⊢
      omega

theorem restOk_shift {idx cc1 cc2 : Nat} {d : Int} {rest : List Value}
    (h : restOk idx (cc1 + cc2) d rest) : restOk (idx + cc1) cc2 d rest := by
  cases rest with
  | nil => trivial
  | cons w t =>
      rw [restOk] at h ⊢
      omega

theorem restOk_of_head {idx cc : Nat} {d : Int} {l : List Value}
    (h : l ≠ [] → ((l.headD Value.nullValue).columnIndex < idx ∨
        idx + cc ≤ (l.headD Value.nullValue).columnIndex) ∨
        (l.headD Value.nullValue).repetitionLevel ≤ d) :
    restOk idx cc d l := by
  cases l with
  | nil => trivial
  | cons w t =>
      rw [restOk]
      simpa using h (by simp)

/-! ### Head of a deconstruction

A deconstruction is non-empty, starts at the subtree's first column,
carries the incoming repetition level, and its first definition level is at
least the incoming one. -/
mutual
theorem deconstruct_head : ∀ (n : Node) (idx : Nat) (lv : Levels) (v : GoValue),
    n.wf = true →
    0 < (deconstruct n idx lv v).length ∧
    ((deconstruct n idx lv v).headD Value.nullValue).columnIndex = idx ∧
    ((deconstruct n idx lv v).headD Value.nullValue).repetitionLevel = lv.repetitionLevel ∧
    lv.definitionLevel ≤ ((deconstruct n idx lv v).headD Value.nullValue).definitionLevel
  | .optional c, idx, lv, v, h => by
      rw [Node.wf] at h
      have hreq : (Node.required c).wf = true := by rw [Node.wf]; exact h
      cases v with
      | invalid =>
          simp only [deconstruct]
          exact deconstruct_head (.required c) idx lv .invalid hreq
      | prim k =>
          simp only [deconstruct]
          split
          · exact deconstruct_head (.required c) idx lv .invalid hreq
          · have hr := deconstruct_head (.required c) idx
              { lv with definitionLevel := lv.definitionLevel + 1 } (GoValue.prim k) hreq
            exact ⟨hr.1, hr.2.1, hr.2.2.1, by
              have h4 := hr.2.2.2
              dsimp at h4 ⊢
              omega⟩
      | strukt fs =>
          simp only [deconstruct]
          split
          · exact deconstruct_head (.required c) idx lv .invalid hreq
          · have hr := deconstruct_head (.required c) idx
              { lv with definitionLevel := lv.definitionLevel + 1 } (GoValue.strukt fs) hreq
            exact ⟨hr.1, hr.2.1, hr.2.2.1, by
              have h4 := hr.2.2.2
              dsimp at h4 ⊢
              omega⟩
      | slice b elems =>
          simp only [deconstruct]
          split
          · exact deconstruct_head (.required c) idx lv .invalid hreq
          · have hr := deconstruct_head (.required c) idx
              { lv with definitionLevel := lv.definitionLevel + 1 } (GoValue.slice b elems) hreq
            exact ⟨hr.1, hr.2.1, hr.2.2.1, by
              have h4 := hr.2.2.2
              dsimp at h4 ⊢
              omega⟩
      | gomap b entries =>
          simp only [deconstruct]
          split
          · exact deconstruct_head (.required c) idx lv .invalid hreq
          · have hr := deconstruct_head (.required c) idx
              { lv with definitionLevel := lv.definitionLevel + 1 } (GoValue.gomap b entries) hreq
            exact ⟨hr.1, hr.2.1, hr.2.2.1, by
              have h4 := hr.2.2.2
              dsimp at h4 ⊢
              omega⟩
  | .repeated c, idx, lv, v, h => by
      rw [Node.wf] at h
      have hreq : (Node.required c).wf = true := by rw [Node.wf]; exact h
      cases v with
      | invalid => simp only [deconstruct]; exact deconstruct_head (.required c) idx lv .invalid hreq
      | prim k => simp only [deconstruct]; exact deconstruct_head (.required c) idx lv .invalid hreq
      | strukt fs => simp only [deconstruct]; exact deconstruct_head (.required c) idx lv .invalid hreq
      | gomap b entries => simp only [deconstruct]; exact deconstruct_head (.required c) idx lv .invalid hreq
      | slice b elems =>
          cases elems with
          | nil =>
              simp only [deconstruct]
              have hr := deconstruct_head (.required c) idx
                { lv with repetitionDepth := lv.repetitionDepth + 1 } .invalid hreq
              exact ⟨hr.1, hr.2.1, hr.2.2.1, hr.2.2.2⟩
          | cons e es =>
              simp only [deconstruct]
              have hr := deconstruct_head_elems c idx
                { repetitionDepth := lv.repetitionDepth + 1,
                  repetitionLevel := lv.repetitionLevel,
                  definitionLevel := lv.definitionLevel + 1 } (e :: es) h (by simp)
              exact ⟨hr.1, hr.2.1, hr.2.2.1, by
                have h4 := hr.2.2.2
                dsimp at h4 ⊢
                omega⟩
  | .required .leaf, idx, lv, v, _ => by
      cases v <;> simp [deconstruct]
  | .required (.group cs), idx, lv, v, h => by
      rw [Node.wf] at h
      obtain ⟨h1, h2⟩ := wfGroup_elim h
      cases v with
      | invalid => simp only [deconstruct]; exact deconstruct_head_group cs idx lv [] h1 h2
      | prim k => simp only [deconstruct]; exact deconstruct_head_group cs idx lv [] h1 h2
      | slice b elems => simp only [deconstruct]; exact deconstruct_head_group cs idx lv [] h1 h2
      | gomap b entries => simp only [deconstruct]; exact deconstruct_head_group cs idx lv [] h1 h2
      | strukt fields => simp only [deconstruct]; exact deconstruct_head_group cs idx lv fields h1 h2
  | .required (.list e), idx, lv, v, h => by
      rw [Node.wf] at h
      rw [Content.wf] at h
      simp only [deconstruct]
      exact deconstruct_head (.repeated e) idx lv v (by rw [Node.wf]; exact h)
  | .required (.mapOf vn), idx, lv, v, h => by
      rw [Node.wf] at h
      rw [Content.wf] at h
      have hmp := wf_mapPairNode vn h
      cases v with
      | invalid => simp only [deconstruct]; exact deconstruct_head (mapPairNode vn) idx lv .invalid hmp
      | prim k => simp only [deconstruct]; exact deconstruct_head (mapPairNode vn) idx lv .invalid hmp
      | strukt fs => simp only [deconstruct]; exact deconstruct_head (mapPairNode vn) idx lv .invalid hmp
      | slice b elems => simp only [deconstruct]; exact deconstruct_head (mapPairNode vn) idx lv .invalid hmp
      | gomap b entries =>
          simp only [deconstruct]
          exact deconstruct_head (mapPairNode vn) idx lv _ hmp
  termination_by n _ _ _ _ => (n.msize, 0)
  decreasing_by all_goals (simp_wf; rw [Prod.lex_def]; simp [Node.msize, Content.msize, msizeList, mapPairNode] <;> omega)
theorem deconstruct_head_elems : ∀ (c : Content) (idx : Nat) (lv : Levels)
    (elems : List GoValue), c.wf = true → elems ≠ [] →
    0 < (deconstructElems c idx lv elems).length ∧
    ((deconstructElems c idx lv elems).headD Value.nullValue).columnIndex = idx ∧
    ((deconstructElems c idx lv elems).headD Value.nullValue).repetitionLevel =
      lv.repetitionLevel ∧
    lv.definitionLevel ≤
      ((deconstructElems c idx lv elems).headD Value.nullValue).definitionLevel
  | c, idx, lv, [], _, hne => absurd rfl hne
  | c, idx, lv, e :: es, h, _ => by
      rw [deconstructElems]
      have hd := deconstruct_head (.required c) idx lv e (by rw [Node.wf]; exact h)
      have hne : deconstruct (.required c) idx lv e ≠ [] :=
        List.ne_nil_of_length_pos hd.1
      rw [headD_append _ _ _ hne]
      refine ⟨?_, hd.2.1, hd.2.2.1, hd.2.2.2⟩
      have h5 := hd.1
      rw [List.length_append]
      omega
  termination_by c _ _ elems _ _ => (c.msize + 1, elems.length)
  decreasing_by all_goals (simp_wf; rw [Prod.lex_def]; simp [Node.msize, Content.msize, msizeList, mapPairNode] <;> omega)
theorem deconstruct_head_group : ∀ (cs : List Node) (idx : Nat) (lv : Levels)
    (fs : List GoValue), wfList cs = true → cs ≠ [] →
    0 < (deconstructGroup cs idx lv fs).length ∧
    ((deconstructGroup cs idx lv fs).headD Value.nullValue).columnIndex = idx ∧
    ((deconstructGroup cs idx lv fs).headD Value.nullValue).repetitionLevel =
      lv.repetitionLevel ∧
    lv.definitionLevel ≤
      ((deconstructGroup cs idx lv fs).headD Value.nullValue).definitionLevel
  | [], _, _, _, _, hne => absurd rfl hne
  | n :: rest, idx, lv, fs, h, _ => by
      have h1 := (wfCons_elim h).1
      rw [deconstructGroup]
      have hd := deconstruct_head n idx lv (fs.headD .invalid) h1
      have hne : deconstruct n idx lv (fs.headD .invalid) ≠ [] :=
        List.ne_nil_of_length_pos hd.1
      rw [headD_append _ _ _ hne]
      refine ⟨?_, hd.2.1, hd.2.2.1, hd.2.2.2⟩
      have h5 := hd.1
      rw [List.length_append]
      omega
  termination_by cs _ _ _ _ _ => (msizeList cs + 1, 0)
  decreasing_by all_goals (simp_wf; rw [Prod.lex_def]; simp [Node.msize, Content.msize, msizeList, mapPairNode] <;> omega)
end

/-! ### Deconstruction of an absent subtree

Shredding an invalid (absent) value emits exactly one null per leaf column,
all at the incoming definition level. -/
mutual
theorem deconstruct_inv : ∀ (n : Node) (idx : Nat) (lv : Levels), n.wf = true →
    (deconstruct n idx lv .invalid).length = n.colCount ∧
    ((deconstruct n idx lv .invalid).headD Value.nullValue).definitionLevel =
      lv.definitionLevel
  | .optional c, idx, lv, h => by
      rw [Node.wf] at h
      simp only [deconstruct]
      have hr := deconstruct_inv (.required c) idx lv (by rw [Node.wf]; exact h)
      rw [Node.colCount] at hr
      rw [Node.colCount]
      exact hr
  | .repeated c, idx, lv, h => by
      rw [Node.wf] at h
      simp only [deconstruct]
      have hr := deconstruct_inv (.required c) idx lv (by rw [Node.wf]; exact h)
      rw [Node.colCount] at hr
      rw [Node.colCount]
      exact hr
  | .required .leaf, idx, lv, h => by
      simp [deconstruct, Node.colCount, Content.colCount]
  | .required (.group cs), idx, lv, h => by
      rw [Node.wf] at h
      obtain ⟨h1, h2⟩ := wfGroup_elim h
      simp only [deconstruct]
      have hr := deconstruct_inv_group cs idx lv h1
      rw [Node.colCount, Content.colCount]
      exact ⟨hr.1, hr.2 h2⟩
  | .required (.list e), idx, lv, h => by
      rw [Node.wf] at h
      rw [Content.wf] at h
      simp only [deconstruct]
      have hr := deconstruct_inv (.required e) idx lv (by rw [Node.wf]; exact h)
      rw [Node.colCount] at hr
      rw [Node.colCount, Content.colCount]
      exact hr
  | .required (.mapOf vn), idx, lv, h => by
      rw [Node.wf] at h
      rw [Content.wf] at h
      simp only [deconstruct]
      have hr := deconstruct_inv (mapPairNode vn) idx lv (wf_mapPairNode vn h)
      rw [colCount_mapPairNode] at hr
      rw [Node.colCount, Content.colCount]
      exact hr
  termination_by n _ _ _ => (n.msize, 0)
  decreasing_by all_goals (simp_wf; rw [Prod.lex_def]; simp [Node.msize, Content.msize, msizeList, mapPairNode] <;> omega)
theorem deconstruct_inv_group : ∀ (cs : List Node) (idx : Nat) (lv : Levels),
    wfList cs = true →
    (deconstructGroup cs idx lv []).length = colCountList cs ∧
    (cs ≠ [] →
      ((deconstructGroup cs idx lv []).headD Value.nullValue).definitionLevel =
        lv.definitionLevel)
  | [], idx, lv, _ => by
      rw [deconstructGroup]
      exact ⟨by rw [colCountList]; rfl, fun hne => absurd rfl hne⟩
  | n :: rest, idx, lv, h => by
      obtain ⟨h1, h2⟩ := wfCons_elim h
      rw [deconstructGroup]
      simp only [List.headD_nil, List.tail_nil]
      have hn := deconstruct_inv n idx lv h1
      have hrest := deconstruct_inv_group rest (idx + n.colCount) lv h2
      constructor
      · rw [List.length_append, hn.1, hrest.1, colCountList]
      · intro _
        have hpos : 0 < (deconstruct n idx lv .invalid).length := by
          rw [hn.1]
          exact colCount_pos n h1
        rw [headD_append _ _ _ (List.ne_nil_of_length_pos hpos)]
        exact hn.2
  termination_by cs _ _ _ => (msizeList cs + 1, 0)
  decreasing_by all_goals (simp_wf; rw [Prod.lex_def]; simp [Node.msize, Content.msize, msizeList, mapPairNode] <;> omega)
end

/-! ### A deconstruction covers the subtree's column span -/
mutual
theorem deconstruct_len : ∀ (n : Node) (idx : Nat) (lv : Levels) (v : GoValue),
    n.wf = true → n.colCount ≤ (deconstruct n idx lv v).length
  | .optional c, idx, lv, v, h => by
      rw [Node.wf] at h
      have hreq : (Node.required c).wf = true := by rw [Node.wf]; exact h
      rw [Node.colCount]
      cases v with
      | invalid =>
          simp only [deconstruct]
          have := deconstruct_len (.required c) idx lv .invalid hreq
          rw [Node.colCount] at this
          exact this
      | prim k =>
          simp only [deconstruct]
          split
          · have := deconstruct_len (.required c) idx lv .invalid hreq
            rw [Node.colCount] at this; exact this
          · have := deconstruct_len (.required c) idx
              { lv with definitionLevel := lv.definitionLevel + 1 } (.prim k) hreq
            rw [Node.colCount] at this; exact this
      | strukt fs =>
          simp only [deconstruct]
          split
          · have := deconstruct_len (.required c) idx lv .invalid hreq
            rw [Node.colCount] at this; exact this
          · have := deconstruct_len (.required c) idx
              { lv with definitionLevel := lv.definitionLevel + 1 } (.strukt fs) hreq
            rw [Node.colCount] at this; exact this
      | slice b elems =>
          simp only [deconstruct]
          split
          · have := deconstruct_len (.required c) idx lv .invalid hreq
            rw [Node.colCount] at this; exact this
          · have := deconstruct_len (.required c) idx
              { lv with definitionLevel := lv.definitionLevel + 1 } (.slice b elems) hreq
            rw [Node.colCount] at this; exact this
      | gomap b entries =>
          simp only [deconstruct]
          split
          · have := deconstruct_len (.required c) idx lv .invalid hreq
            rw [Node.colCount] at this; exact this
          · have := deconstruct_len (.required c) idx
              { lv with definitionLevel := lv.definitionLevel + 1 } (.gomap b entries) hreq
            rw [Node.colCount] at this; exact this
  | .repeated c, idx, lv, v, h => by
      rw [Node.wf] at h
      have hreq : (Node.required c).wf = true := by rw [Node.wf]; exact h
      rw [Node.colCount]
      cases v with
      | invalid =>
          simp only [deconstruct]
          have := deconstruct_len (.required c) idx lv .invalid hreq
          rw [Node.colCount] at this; exact this
      | prim k =>
          simp only [deconstruct]
          have := deconstruct_len (.required c) idx lv .invalid hreq
          rw [Node.colCount] at this; exact this
      | strukt fs =>
          simp only [deconstruct]
          have := deconstruct_len (.required c) idx lv .invalid hreq
          rw [Node.colCount] at this; exact this
      | gomap b entries =>
          simp only [deconstruct]
          have := deconstruct_len (.required c) idx lv .invalid hreq
          rw [Node.colCount] at this; exact this
      | slice b elems =>
          cases elems with
          | nil =>
              simp only [deconstruct]
              have := deconstruct_len (.required c) idx
                { lv with repetitionDepth := lv.repetitionDepth + 1 } .invalid hreq
              rw [Node.colCount] at this; exact this
          | cons e es =>
              simp only [deconstruct]
              exact deconstruct_len_elems c idx
                { repetitionDepth := lv.repetitionDepth + 1,
                  repetitionLevel := lv.repetitionLevel,
                  definitionLevel := lv.definitionLevel + 1 } (e :: es) h (by simp)
  | .required .leaf, idx, lv, v, _ => by
      cases v <;> simp [deconstruct, Node.colCount, Content.colCount]
  | .required (.group cs), idx, lv, v, h => by
      rw [Node.wf] at h
      obtain ⟨h1, _⟩ := wfGroup_elim h
      rw [Node.colCount, Content.colCount]
      cases v with
      | strukt fields =>
          simp only [deconstruct]
          exact deconstruct_len_group cs idx lv fields h1
      | invalid => simp only [deconstruct]; exact deconstruct_len_group cs idx lv [] h1
      | prim k => simp only [deconstruct]; exact deconstruct_len_group cs idx lv [] h1
      | slice b elems => simp only [deconstruct]; exact deconstruct_len_group cs idx lv [] h1
      | gomap b entries => simp only [deconstruct]; exact deconstruct_len_group cs idx lv [] h1
  | .required (.list e), idx, lv, v, h => by
      rw [Node.wf] at h
      rw [Content.wf] at h
      rw [Node.colCount, Content.colCount]
      simp only [deconstruct]
      have := deconstruct_len (.repeated e) idx lv v (by rw [Node.wf]; exact h)
      rw [Node.colCount] at this; exact this
  | .required (.mapOf vn), idx, lv, v, h => by
      rw [Node.wf] at h
      rw [Content.wf] at h
      have hmp := wf_mapPairNode vn h
      rw [Node.colCount, Content.colCount]
      cases v with
      | gomap b entries =>
          simp only [deconstruct]
          have := deconstruct_len (mapPairNode vn) idx lv
            (.slice false (entries.map fun p => .strukt [.prim p.1, p.2])) hmp
          rw [colCount_mapPairNode] at this; exact this
      | invalid =>
          simp only [deconstruct]
          have := deconstruct_len (mapPairNode vn) idx lv .invalid hmp
          rw [colCount_mapPairNode] at this; exact this
      | prim k =>
          simp only [deconstruct]
          have := deconstruct_len (mapPairNode vn) idx lv .invalid hmp
          rw [colCount_mapPairNode] at this; exact this
      | strukt fs =>
          simp only [deconstruct]
          have := deconstruct_len (mapPairNode vn) idx lv .invalid hmp
          rw [colCount_mapPairNode] at this; exact this
      | slice b elems =>
          simp only [deconstruct]
          have := deconstruct_len (mapPairNode vn) idx lv .invalid hmp
          rw [colCount_mapPairNode] at this; exact this
  termination_by n _ _ _ _ => (n.msize, 0)
  decreasing_by all_goals (simp_wf; rw [Prod.lex_def]; simp [Node.msize, Content.msize, msizeList, mapPairNode] <;> omega)
theorem deconstruct_len_elems : ∀ (c : Content) (idx : Nat) (lv : Levels)
    (elems : List GoValue), c.wf = true → elems ≠ [] →
    c.colCount ≤ (deconstructElems c idx lv elems).length
  | _, _, _, [], _, hne => absurd rfl hne
  | c, idx, lv, e :: es, h, _ => by
      rw [deconstructElems]
      have h1 := deconstruct_len (.required c) idx lv e (by rw [Node.wf]; exact h)
      rw [Node.colCount] at h1
      rw [List.length_append]
      omega
  termination_by c _ _ elems _ _ => (c.msize + 1, elems.length)
  decreasing_by all_goals (simp_wf; rw [Prod.lex_def]; simp [Node.msize, Content.msize, msizeList, mapPairNode] <;> omega)
theorem deconstruct_len_group : ∀ (cs : List Node) (idx : Nat) (lv : Levels)
    (fs : List GoValue), wfList cs = true →
    colCountList cs ≤ (deconstructGroup cs idx lv fs).length
  | [], _, _, _, _ => by
      rw [deconstructGroup, colCountList]
      exact Nat.zero_le _
  | n :: rest, idx, lv, fs, h => by
      obtain ⟨h1, h2⟩ := wfCons_elim h
      rw [deconstructGroup, colCountList]
      have ha := deconstruct_len n idx lv (fs.headD .invalid) h1
      have hb := deconstruct_len_group rest (idx + n.colCount) lv fs.tail h2
      rw [List.length_append]
      omega
  termination_by cs _ _ _ _ => (msizeList cs + 1, 0)
  decreasing_by all_goals (simp_wf; rw [Prod.lex_def]; simp [Node.msize, Content.msize, msizeList, mapPairNode] <;> omega)
end

/-! ### A zero-valued shaped record is the zero of its schema -/
mutual
theorem isZero_eq_zero : ∀ (n : Node) (v : GoValue), hasShape v n = true →
    v.isZero = true → v = n.zero
  | .required c, v, h1, h2 => by
      rw [hasShape] at h1
      rw [Node.zero]
      exact isZero_eq_zero_content c v h1 h2
  | .optional c, v, h1, h2 => by
      rw [hasShape] at h1
      rw [Node.zero]
      exact isZero_eq_zero_content c v h1 h2
  | .repeated _, .invalid, h1, _ => by simp [hasShape] at h1
  | .repeated _, .prim _, h1, _ => by simp [hasShape] at h1
  | .repeated _, .strukt _, h1, _ => by simp [hasShape] at h1
  | .repeated _, .gomap _ _, h1, _ => by simp [hasShape] at h1
  | .repeated c, .slice b elems, h1, h2 => by
      rw [hasShape] at h1
      rw [GoValue.isZero] at h2
      subst h2
      simp only [Bool.not_true, Bool.false_or, Bool.and_eq_true] at h1
      rw [Node.zero]
      have he : elems = [] := by simpa using h1.1
      rw [he]
  termination_by n v _ _ => (sizeOf v, 1)
  decreasing_by all_goals (simp_wf; rw [Prod.lex_def]; simp <;> omega)
theorem isZero_eq_zero_content : ∀ (c : Content) (v : GoValue),
    contentShape v c = true → v.isZero = true → v = c.zero
  | .leaf, .prim k, _, h2 => by
      rw [GoValue.isZero] at h2
      rw [Content.zero]
      simp only [beq_iff_eq] at h2
      rw [h2]
  | .leaf, .invalid, h1, _ => by simp [contentShape] at h1
  | .leaf, .strukt _, h1, _ => by simp [contentShape] at h1
  | .leaf, .slice _ _, h1, _ => by simp [contentShape] at h1
  | .leaf, .gomap _ _, h1, _ => by simp [contentShape] at h1
  | .group cs, .strukt fs, h1, h2 => by
      rw [contentShape] at h1
      rw [GoValue.isZero] at h2
      rw [Content.zero]
      rw [isZero_eq_zero_fields cs fs h1 h2]
  | .group _, .invalid, h1, _ => by simp [contentShape] at h1
  | .group _, .prim _, h1, _ => by simp [contentShape] at h1
  | .group _, .slice _ _, h1, _ => by simp [contentShape] at h1
  | .group _, .gomap _ _, h1, _ => by simp [contentShape] at h1
  | .list e, .slice b elems, h1, h2 => by
      rw [contentShape] at h1
      rw [GoValue.isZero] at h2
      subst h2
      simp only [Bool.not_true, Bool.false_or, Bool.and_eq_true] at h1
      rw [Content.zero]
      have he : elems = [] := by simpa using h1.1
      rw [he]
  | .list _, .invalid, h1, _ => by simp [contentShape] at h1
  | .list _, .prim _, h1, _ => by simp [contentShape] at h1
  | .list _, .strukt _, h1, _ => by simp [contentShape] at h1
  | .list _, .gomap _ _, h1, _ => by simp [contentShape] at h1
  | .mapOf vn, .gomap b entries, h1, h2 => by
      rw [contentShape] at h1
      rw [GoValue.isZero] at h2
      subst h2
      simp only [Bool.not_true, Bool.false_or, Bool.and_eq_true] at h1
      rw [Content.zero]
      have he : entries = [] := by simpa using h1.1.1
      rw [he]
  | .mapOf _, .invalid, h1, _ => by simp [contentShape] at h1
  | .mapOf _, .prim _, h1, _ => by simp [contentShape] at h1
  | .mapOf _, .strukt _, h1, _ => by simp [contentShape] at h1
  | .mapOf _, .slice _ _, h1, _ => by simp [contentShape] at h1
  termination_by c v _ _ => (sizeOf v, 0)
  decreasing_by all_goals (simp_wf; rw [Prod.lex_def]; simp <;> omega)
theorem isZero_eq_zero_fields : ∀ (cs : List Node) (fs : List GoValue),
    fieldsShape fs cs = true → isZeroList fs = true → fs = zeroList cs
  | [], [], _, _ => by rw [zeroList]
  | [], f :: ftail, h1, _ => by simp [fieldsShape] at h1
  | n :: ns, [], h1, _ => by simp [fieldsShape] at h1
  | n :: ns, f :: ftail, h1, h2 => by
      rw [fieldsShape] at h1
      rw [isZeroList] at h2
      simp only [Bool.and_eq_true] at h1 h2
      rw [zeroList]
      rw [isZero_eq_zero n f h1.1 h2.1, isZero_eq_zero_fields ns ftail h1.2 h2.2]
  termination_by _ fs _ _ => (sizeOf fs, 2)
  decreasing_by all_goals (simp_wf; rw [Prod.lex_def]; simp <;> omega)
end

/-! ### Bridge lemmas between the list/map aliases and their repeated forms -/

theorem contentShape_invalid : ∀ (c : Content), contentShape .invalid c = false := by
  intro c
  cases c <;> simp [contentShape]

theorem shape_list_repeated (e : Content) (v : GoValue) :
    contentShape v (.list e) = hasShape v (.repeated e) := by
  cases v <;> simp [contentShape, hasShape]

theorem canon_list_repeated (e : Content) (v : GoValue) :
    canonContent (.list e) v = canon (.repeated e) v := by
  cases v <;> simp [canonContent, canon]

/-- The optional deconstructor on a valid value, with the zero test
explicit. -/
theorem deconstruct_optional_eq (c : Content) (idx : Nat) (lv : Levels)
    (v : GoValue) (hne : v ≠ .invalid) :
    deconstruct (.optional c) idx lv v =
      if v.isZero then deconstruct (.required c) idx lv .invalid
      else deconstruct (.required c) idx
        { lv with definitionLevel := lv.definitionLevel + 1 } v := by
  cases v with
  | invalid => exact absurd rfl hne
  | prim k => simp only [deconstruct]
  | strukt fs => simp only [deconstruct]
  | slice b elems => simp only [deconstruct]
  | gomap b entries => simp only [deconstruct]

theorem pairsShape_of_entries (vn : Node) :
    ∀ (entries : List (Int × GoValue)), entriesShape entries vn = true →
    elemsShape (entries.map fun p => GoValue.strukt [.prim p.1, p.2])
      (.group [.required .leaf, vn]) = true
  | [], _ => by simp [elemsShape]
  | (k, x) :: rest, h => by
      rw [entriesShape] at h
      simp only [Bool.and_eq_true] at h
      simp only [List.map_cons]
      rw [elemsShape]
      simp only [Bool.and_eq_true]
      refine ⟨?_, pairsShape_of_entries vn rest h.2⟩
      rw [contentShape, fieldsShape]
      simp only [Bool.and_eq_true]
      exact ⟨by rw [hasShape, contentShape], by
        rw [fieldsShape]
        simp only [Bool.and_eq_true]
        exact ⟨h.1, by rw [fieldsShape]⟩⟩

theorem canonPairs (vn : Node) :
    ∀ (entries : List (Int × GoValue)),
    (canonElems (.group [.required .leaf, vn])
        (entries.map fun p => GoValue.strukt [.prim p.1, p.2])).map
      (fun x => match x with
        | .strukt (k :: v :: _) => (primPayload k, v)
        | _ => ((0 : Int), GoValue.invalid)) = canonEntries vn entries
  | [] => by
      simp only [List.map_nil]
      rw [canonElems, canonEntries]
      rfl
  | (k, x) :: rest => by
      simp only [List.map_cons]
      rw [canonElems, canonEntries]
      simp only [List.map_cons]
      congr 1
      · rw [canonContent, canonFields, canonFields, canonFields]
        simp only [List.headD_cons, List.tail_cons]
        rw [canon]
        rw [canonContent]
        rfl
      · exact canonPairs vn rest

/-! ### The round-trip theorem

Reconstructing the deconstruction of a shaped record (with any following
row satisfying `restOk`) succeeds and yields the record's canonical form,
consuming exactly the deconstructed prefix. -/
mutual
theorem RT_node : ∀ (n : Node) (idx : Nat) (lv : Levels) (v : GoValue)
    (rest : List Value), n.wf = true → hasShape v n = true →
    restOk idx n.colCount lv.repetitionDepth rest →
    reconstruct n idx lv n.zero (deconstruct n idx lv v ++ rest) =
      .ok (canon n v, rest)
  | .required .leaf, idx, lv, .prim k, rest, _, _, _ => by
      simp only [deconstruct, List.cons_append, List.nil_append]
      rw [reconstruct]
      rw [if_neg (by simp)]
      rw [canon, canonContent]
  | .required .leaf, _, _, .invalid, _, _, h2, _ => by
      simp [hasShape, contentShape] at h2
  | .required .leaf, _, _, .strukt _, _, _, h2, _ => by
      simp [hasShape, contentShape] at h2
  | .required .leaf, _, _, .slice _ _, _, _, h2, _ => by
      simp [hasShape, contentShape] at h2
  | .required .leaf, _, _, .gomap _ _, _, _, h2, _ => by
      simp [hasShape, contentShape] at h2
  | .required (.group cs), idx, lv, .strukt fs, rest, h1, h2, h3 => by
      rw [Node.wf] at h1
      obtain ⟨hw1, hw2⟩ := wfGroup_elim h1
      rw [hasShape, contentShape] at h2
      rw [Node.colCount, Content.colCount] at h3
      simp only [deconstruct]
      rw [reconstruct]
      simp only [Node.zero, Content.zero, destFields]
      rw [RT_group cs idx lv fs rest hw1 h2 h3]
      rw [canon, canonContent]
  | .required (.group _), _, _, .invalid, _, _, h2, _ => by
      simp [hasShape, contentShape] at h2
  | .required (.group _), _, _, .prim _, _, _, h2, _ => by
      simp [hasShape, contentShape] at h2
  | .required (.group _), _, _, .slice _ _, _, _, h2, _ => by
      simp [hasShape, contentShape] at h2
  | .required (.group _), _, _, .gomap _ _, _, _, h2, _ => by
      simp [hasShape, contentShape] at h2
  | .required (.list e), idx, lv, v, rest, h1, h2, h3 => by
      rw [Node.wf] at h1
      rw [Content.wf] at h1
      rw [hasShape, shape_list_repeated] at h2
      rw [Node.colCount, Content.colCount] at h3
      simp only [deconstruct]
      rw [reconstruct]
      have hrec := RT_node (.repeated e) idx lv v rest
        (by rw [Node.wf]; exact h1) h2 (by rw [Node.colCount]; exact h3)
      simp only [Node.zero, Content.zero] at hrec ⊢
      rw [hrec]
      rw [canon, canon_list_repeated]
  | .required (.mapOf vn), idx, lv, .gomap b entries, rest, h1, h2, h3 => by
      rw [Node.wf] at h1
      rw [Content.wf] at h1
      rw [hasShape, contentShape] at h2
      simp only [Bool.and_eq_true] at h2
      rw [Node.colCount, Content.colCount] at h3
      simp only [deconstruct]
      rw [reconstruct]
      have hshape : hasShape
          (GoValue.slice false (entries.map fun p => GoValue.strukt [.prim p.1, p.2]))
          (mapPairNode vn) = true := by
        rw [mapPairNode, hasShape]
        simp only [Bool.not_false, Bool.true_or, Bool.true_and]
        exact pairsShape_of_entries vn entries h2.2
      have hro : restOk idx (mapPairNode vn).colCount lv.repetitionDepth rest := by
        rw [colCount_mapPairNode]
        exact h3
      have hrec := RT_node (mapPairNode vn) idx lv
        (GoValue.slice false (entries.map fun p => GoValue.strukt [.prim p.1, p.2]))
        rest (wf_mapPairNode vn h1) hshape hro
      rw [show (mapPairNode vn).zero = GoValue.slice true [] by
        rw [mapPairNode, Node.zero]] at hrec
      rw [hrec]
      try dsimp only
      rw [show canon (mapPairNode vn)
            (GoValue.slice false (entries.map fun p => GoValue.strukt [.prim p.1, p.2])) =
          GoValue.slice false (canonElems (.group [.required .leaf, vn])
            (entries.map fun p => GoValue.strukt [.prim p.1, p.2])) by
        rw [mapPairNode, canon]]
      try dsimp only
      rw [canonPairs vn entries]
      rw [canon, canonContent]
  | .required (.mapOf _), _, _, .invalid, _, _, h2, _ => by
      simp [hasShape, contentShape] at h2
  | .required (.mapOf _), _, _, .prim _, _, _, h2, _ => by
      simp [hasShape, contentShape] at h2
  | .required (.mapOf _), _, _, .strukt _, _, _, h2, _ => by
      simp [hasShape, contentShape] at h2
  | .required (.mapOf _), _, _, .slice _ _, _, _, h2, _ => by
      simp [hasShape, contentShape] at h2
  | .optional c, idx, lv, v, rest, h1, h2, h3 => by
      rw [Node.wf] at h1
      have hreq : (Node.required c).wf = true := by rw [Node.wf]; exact h1
      have h2' := h2
      rw [hasShape] at h2
      have hne : v ≠ .invalid := by
        intro he
        rw [he, contentShape_invalid] at h2
        exact absurd h2 (by simp)
      rw [Node.colCount] at h3
      rw [deconstruct_optional_eq c idx lv v hne]
      by_cases hz : v.isZero = true
      · rw [if_pos hz]
        have hinv := deconstruct_inv (.required c) idx lv hreq
        have hlen : (deconstruct (.required c) idx lv .invalid).length = c.colCount := by
          rw [hinv.1, Node.colCount]
        have hpos : 0 < (deconstruct (.required c) idx lv .invalid).length := by
          rw [hlen]
          exact colCount_pos_content c h1
        have hne2 := List.ne_nil_of_length_pos hpos
        have hhead := deconstruct_head (.required c) idx lv .invalid hreq
        rw [reconstruct]
        try dsimp only
        rw [startsWithCol_append hne2 hhead.2.1]
        rw [if_neg (by simp)]
        rw [if_neg (show ¬ ((deconstruct (.required c) idx lv .invalid ++ rest).length
            < c.colCount) by
          rw [List.length_append, hlen]
          omega)]
        rw [headD_append _ _ _ hne2]
        rw [if_pos (show (((deconstruct (.required c) idx lv .invalid).headD
            Value.nullValue).definitionLevel < lv.definitionLevel + 1) by
          rw [hinv.2]
          omega)]
        rw [show (deconstruct (.required c) idx lv .invalid ++ rest).drop c.colCount
            = rest by
          rw [← hlen, List.drop_left]]
        rw [canon]
        rw [if_pos hz]
        rw [← isZero_eq_zero (.optional c) v h2' hz]
      · rw [if_neg hz]
        have hhead := deconstruct_head (.required c) idx
          { lv with definitionLevel := lv.definitionLevel + 1 } v hreq
        have hne2 := List.ne_nil_of_length_pos hhead.1
        have hlen := deconstruct_len (.required c) idx
          { lv with definitionLevel := lv.definitionLevel + 1 } v hreq
        rw [Node.colCount] at hlen
        rw [reconstruct]
        try dsimp only
        rw [startsWithCol_append hne2 hhead.2.1]
        rw [if_neg (by simp)]
        rw [if_neg (show ¬ ((deconstruct (.required c) idx
            { lv with definitionLevel := lv.definitionLevel + 1 } v ++ rest).length
            < c.colCount) by
          rw [List.length_append]
          omega)]
        rw [headD_append _ _ _ hne2]
        rw [if_neg (show ¬ (((deconstruct (.required c) idx
            { lv with definitionLevel := lv.definitionLevel + 1 } v).headD
            Value.nullValue).definitionLevel < lv.definitionLevel + 1) by
          have h4 := hhead.2.2.2
          dsimp only at h4
          omega)]
        have hrec := RT_node (.required c) idx
          { lv with definitionLevel := lv.definitionLevel + 1 } v rest hreq
          (by rw [hasShape]; exact h2)
          (by rw [Node.colCount]; exact h3)
        simp only [Node.zero] at hrec ⊢
        rw [hrec]
        have hcr : canon (Node.required c) v = canonContent c v := by rw [canon]
        have hco : canon (Node.optional c) v = canonContent c v := by
          rw [canon]
          rw [if_neg hz]
        rw [hcr, hco]
  | .repeated c, idx, lv, .slice b elems, rest, h1, h2, h3 => by
      rw [Node.wf] at h1
      have hreq : (Node.required c).wf = true := by rw [Node.wf]; exact h1
      rw [hasShape] at h2
      simp only [Bool.and_eq_true] at h2
      rw [Node.colCount] at h3
      simp only [Node.zero]
      cases elems with
      | nil =>
          simp only [deconstruct]
          have hinv := deconstruct_inv (.required c) idx
            { lv with repetitionDepth := lv.repetitionDepth + 1 } hreq
          have hlen : (deconstruct (.required c) idx
              { lv with repetitionDepth := lv.repetitionDepth + 1 } .invalid).length
              = c.colCount := by
            rw [hinv.1, Node.colCount]
          have hpos : 0 < (deconstruct (.required c) idx
              { lv with repetitionDepth := lv.repetitionDepth + 1 } .invalid).length := by
            rw [hlen]
            exact colCount_pos_content c h1
          have hne2 := List.ne_nil_of_length_pos hpos
          have hhead := deconstruct_head (.required c) idx
            { lv with repetitionDepth := lv.repetitionDepth + 1 } .invalid hreq
          rw [reconstruct]
          try dsimp only
          rw [startsWithCol_append hne2 hhead.2.1]
          rw [if_neg (by simp)]
          rw [if_neg (show ¬ ((deconstruct (.required c) idx
              { lv with repetitionDepth := lv.repetitionDepth + 1 } .invalid
                ++ rest).length < c.colCount) by
            rw [List.length_append, hlen]
            omega)]
          try simp only [Node.zero, Content.zero]
          try dsimp only
          rw [headD_append _ _ _ hne2]
          rw [if_pos (show (((deconstruct (.required c) idx
              { lv with repetitionDepth := lv.repetitionDepth + 1 } .invalid).headD
              Value.nullValue).definitionLevel < lv.definitionLevel + 1) by
            have h4 := hinv.2
            dsimp only at h4
            omega)]
          rw [show (deconstruct (.required c) idx
              { lv with repetitionDepth := lv.repetitionDepth + 1 } .invalid
                ++ rest).drop c.colCount = rest by
            rw [← hlen, List.drop_left]]
          rw [canon, canonElems]
      | cons e es =>
          simp only [deconstruct]
          have hhe := deconstruct_head_elems c idx
            { repetitionDepth := lv.repetitionDepth + 1,
              repetitionLevel := lv.repetitionLevel,
              definitionLevel := lv.definitionLevel + 1 } (e :: es) h1 (by simp)
          have hne2 := List.ne_nil_of_length_pos hhe.1
          have hlen := deconstruct_len_elems c idx
            { repetitionDepth := lv.repetitionDepth + 1,
              repetitionLevel := lv.repetitionLevel,
              definitionLevel := lv.definitionLevel + 1 } (e :: es) h1 (by simp)
          rw [reconstruct]
          try dsimp only
          rw [startsWithCol_append hne2 hhe.2.1]
          rw [if_neg (by simp)]
          rw [if_neg (show ¬ ((deconstructElems c idx
              { repetitionDepth := lv.repetitionDepth + 1,
                repetitionLevel := lv.repetitionLevel,
                definitionLevel := lv.definitionLevel + 1 } (e :: es) ++ rest).length
              < c.colCount) by
            rw [List.length_append]
            omega)]
          try simp only [Node.zero, Content.zero]
          try dsimp only
          rw [headD_append _ _ _ hne2]
          rw [if_neg (show ¬ (((deconstructElems c idx
              { repetitionDepth := lv.repetitionDepth + 1,
                repetitionLevel := lv.repetitionLevel,
                definitionLevel := lv.definitionLevel + 1 } (e :: es)).headD
              Value.nullValue).definitionLevel < lv.definitionLevel + 1) by
            have h4 := hhe.2.2.2
            dsimp only at h4
            omega)]
          have hloop := RT_elems c idx
            { repetitionDepth := lv.repetitionDepth + 1,
              repetitionLevel := lv.repetitionLevel,
              definitionLevel := lv.definitionLevel + 1 } (e :: es) [] rest
            ((deconstructElems c idx
              { repetitionDepth := lv.repetitionDepth + 1,
                repetitionLevel := lv.repetitionLevel,
                definitionLevel := lv.definitionLevel + 1 } (e :: es) ++ rest).length)
            h1 h2.2
            (by dsimp only; simpa using h3)
            (Or.inr (by simp))
            (le_refl _)
          rw [hloop]
          rw [canon]
          simp
  | .repeated _, _, _, .invalid, _, _, h2, _ => by
      simp [hasShape] at h2
  | .repeated _, _, _, .prim _, _, _, h2, _ => by
      simp [hasShape] at h2
  | .repeated _, _, _, .strukt _, _, _, h2, _ => by
      simp [hasShape] at h2
  | .repeated _, _, _, .gomap _ _, _, _, h2, _ => by
      simp [hasShape] at h2
  termination_by n _ _ _ _ _ _ _ => (n.msize, 0)
  decreasing_by all_goals (simp_wf; rw [Prod.lex_def]; simp [Node.msize, Content.msize, msizeList, mapPairNode] <;> omega)
theorem RT_group : ∀ (cs : List Node) (idx : Nat) (lv : Levels)
    (fs : List GoValue) (rest : List Value), wfList cs = true →
    fieldsShape fs cs = true →
    restOk idx (colCountList cs) lv.repetitionDepth rest →
    reconstructGroup cs idx lv (zeroList cs)
        (deconstructGroup cs idx lv fs ++ rest) =
      .ok (canonFields cs fs, rest)
  | [], idx, lv, fs, rest, _, h2, _ => by
      cases fs with
      | nil =>
          rw [deconstructGroup, reconstructGroup, canonFields]
          rfl
      | cons f ftail => simp [fieldsShape] at h2
  | n :: ns, idx, lv, fs, rest, h1, h2, h3 => by
      obtain ⟨hw1, hw2⟩ := wfCons_elim h1
      cases fs with
      | nil => simp [fieldsShape] at h2
      | cons f ftail =>
          rw [fieldsShape] at h2
          simp only [Bool.and_eq_true] at h2
          rw [deconstructGroup, reconstructGroup, zeroList]
          simp only [List.headD_cons, List.tail_cons, List.append_assoc]
          have hro1 : restOk idx n.colCount lv.repetitionDepth
              (deconstructGroup ns (idx + n.colCount) lv ftail ++ rest) := by
            cases hns : deconstructGroup ns (idx + n.colCount) lv ftail with
            | nil =>
                simp only [List.nil_append]
                rw [colCountList] at h3
                exact restOk_mono_cc h3 (by omega)
            | cons w t =>
                have hh : ns ≠ [] := by
                  intro he
                  rw [he, deconstructGroup] at hns
                  exact absurd hns (by simp)
                have hhd := deconstruct_head_group ns (idx + n.colCount) lv ftail hw2 hh
                rw [hns] at hhd
                apply restOk_of_head
                intro _
                left
                right
                simp only [List.cons_append, List.headD_cons]
                have h7 := hhd.2.1
                simp only [List.headD_cons] at h7
                omega
          have hrec1 := RT_node n idx lv f
            (deconstructGroup ns (idx + n.colCount) lv ftail ++ rest) hw1 h2.1 hro1
          rw [hrec1]
          try dsimp only
          have hro2 : restOk (idx + n.colCount) (colCountList ns)
              lv.repetitionDepth rest := by
            rw [colCountList] at h3
            exact restOk_shift h3
          rw [RT_group ns (idx + n.colCount) lv ftail rest hw2 h2.2 hro2]
          rw [canonFields]
          simp only [List.headD_cons, List.tail_cons]
  termination_by cs _ _ _ _ _ _ _ => (msizeList cs + 1, 0)
  decreasing_by all_goals (simp_wf; rw [Prod.lex_def]; simp [Node.msize, Content.msize, msizeList, mapPairNode] <;> omega)
theorem RT_elems : ∀ (c : Content) (idx : Nat) (lv : Levels)
    (elems : List GoValue) (acc : List GoValue) (rest : List Value) (fuel : Nat),
    Content.wf c = true → elemsShape elems c = true →
    restOk idx c.colCount (lv.repetitionDepth - 1) rest →
    (lv.repetitionLevel = lv.repetitionDepth ∨ elems ≠ []) →
    (deconstructElems c idx lv elems ++ rest).length ≤ fuel →
    reconstructRepeatedLoop c idx lv fuel acc
        (deconstructElems c idx lv elems ++ rest) =
      .ok (.slice false (acc ++ canonElems c elems), rest)
  | c, idx, lv, [], acc, rest, fuel, h1, _, h3, h4, _ => by
      rw [deconstructElems]
      simp only [List.nil_append]
      rw [reconstructRepeatedLoop.eq_def]
      try dsimp only
      rw [if_neg (show ¬ (startsWithCol idx rest = true ∧
          (rest.headD Value.nullValue).repetitionLevel = lv.repetitionLevel) by
        have hrl : lv.repetitionLevel = lv.repetitionDepth := by
          cases h4 with
          | inl h => exact h
          | inr h => exact absurd rfl h
        have hcc := colCount_pos_content c h1
        cases rest with
        | nil => simp [startsWithCol]
        | cons w t =>
            rw [restOk] at h3
            simp only [startsWithCol, List.headD_cons]
            intro hcon
            obtain ⟨hs, hr⟩ := hcon
            have hw : w.columnIndex = idx := by simpa using hs
            omega)]
      rw [canonElems]
      simp
  | c, idx, lv, e :: es, acc, rest, fuel, h1, h2, h3, _, h5 => by
      rw [deconstructElems] at h5
      simp only [List.append_assoc, List.length_append] at h5
      rw [elemsShape] at h2
      simp only [Bool.and_eq_true] at h2
      have hreq : (Node.required c).wf = true := by rw [Node.wf]; exact h1
      have hhead := deconstruct_head (.required c) idx lv e hreq
      have hne2 := List.ne_nil_of_length_pos hhead.1
      rw [deconstructElems]
      simp only [List.append_assoc]
      rw [reconstructRepeatedLoop.eq_def]
      try dsimp only
      rw [if_pos (show startsWithCol idx (deconstruct (.required c) idx lv e ++
          (deconstructElems c idx { lv with repetitionLevel := lv.repetitionDepth } es
            ++ rest)) = true ∧
          (((deconstruct (.required c) idx lv e ++
            (deconstructElems c idx { lv with repetitionLevel := lv.repetitionDepth } es
              ++ rest)).headD Value.nullValue)).repetitionLevel = lv.repetitionLevel by
        constructor
        · exact startsWithCol_append hne2 hhead.2.1
        · rw [headD_append _ _ _ hne2]
          exact hhead.2.2.1)]
      cases fuel with
      | zero =>
          exfalso
          have h6 := hhead.1
          omega
      | succ f =>
          try dsimp only
          have hro1 : restOk idx (Node.required c).colCount lv.repetitionDepth
              (deconstructElems c idx
                { lv with repetitionLevel := lv.repetitionDepth } es ++ rest) := by
            cases hes : deconstructElems c idx
                { lv with repetitionLevel := lv.repetitionDepth } es with
            | nil =>
                simp only [List.nil_append]
                exact restOk_mono_depth (by
                  rw [Node.colCount]
                  exact h3) (by omega)
            | cons w t =>
                have hh : es ≠ [] := by
                  intro he
                  rw [he, deconstructElems] at hes
                  exact absurd hes (by simp)
                have hhd := deconstruct_head_elems c idx
                  { lv with repetitionLevel := lv.repetitionDepth } es h1 hh
                rw [hes] at hhd
                apply restOk_of_head
                intro _
                right
                simp only [List.cons_append, List.headD_cons]
                simp only [List.headD_cons] at hhd
                have := hhd.2.2.1
                try dsimp only at this
                omega
          have hrec := RT_node (.required c) idx lv e
            (deconstructElems c idx { lv with repetitionLevel := lv.repetitionDepth } es
              ++ rest) hreq (by rw [hasShape]; exact h2.1) hro1
          rw [hrec]
          try dsimp only
          have hloop := RT_elems c idx
            { lv with repetitionLevel := lv.repetitionDepth } es
            (acc ++ [canon (.required c) e]) rest f h1 h2.2
            (by dsimp only; exact h3)
            (Or.inl rfl)
            (by
              have h6 := hhead.1
              simp only [List.length_append] at h5 ⊢
              omega)
          rw [hloop]
          rw [canonElems]
          rw [show canon (.required c) e = canonContent c e by rw [canon]]
          simp
  termination_by c _ _ elems _ _ fuel _ _ _ _ _ => (c.msize + 1, fuel + 1)
  decreasing_by all_goals (simp_wf; rw [Prod.lex_def]; simp [Node.msize, Content.msize, msizeList, mapPairNode] <;> omega)
end

/-- C1 (counterexample): the round trip is not the identity on every shaped
value. A nil slice (`slice true []`) has the shape of a repeated leaf and is
shredded to a single null value, but reassembly produces a present empty
slice (`slice false []`): Go's `reflect`-based assembler allocates a
non-nil empty slice, so nil and empty collections collapse. -/
theorem C1_counterexample :
    (Node.repeated .leaf).wf = true ∧
    hasShape (.slice true []) (.repeated .leaf) = true ∧
    reconstruct (.repeated .leaf) 0 Levels.start (Node.repeated .leaf).zero
      (deconstruct (.repeated .leaf) 0 Levels.start (.slice true [])) =
      .ok (.slice false [], []) ∧
    GoValue.slice false [] ≠ GoValue.slice true [] := by
  refine ⟨by simp [Node.wf, Content.wf], by simp [hasShape, elemsShape], ?_, by simp⟩
  simp [deconstruct, reconstruct, Node.zero, Node.colCount, Content.colCount,
    Levels.start, startsWithCol, Value.nullValue, canon, canonElems]

/-- C1 (amended): for every well-formed schema and every value of that
schema's shape which is canonical — no nil slice or nil map anywhere the
shredder would record a present collection, i.e. `canon n v = v` —
assembling the shredded row into a fresh zero destination returns exactly
the original value and consumes the whole row. On non-canonical values the
round trip returns `canon n v` instead (see the counterexample). -/
theorem C1_roundtrip (n : Node) (v : GoValue) (h1 : n.wf = true)
    (h2 : hasShape v n = true) (h3 : canon n v = v) :
    reconstruct n 0 Levels.start n.zero (deconstruct n 0 Levels.start v) =
      .ok (v, []) := by
  have h := RT_node n 0 Levels.start v [] h1 h2 trivial
  rw [List.append_nil] at h
  rw [h, h3]

theorem C1_roundtrip_witness :
    reconstruct
      (.required (.group [.optional .leaf, .repeated .leaf,
        .required (.list .leaf), .required (.mapOf (.required .leaf))]))
      0 Levels.start
      (Node.required (.group [.optional .leaf, .repeated .leaf,
        .required (.list .leaf), .required (.mapOf (.required .leaf))])).zero
      (deconstruct
        (.required (.group [.optional .leaf, .repeated .leaf,
          .required (.list .leaf), .required (.mapOf (.required .leaf))]))
        0 Levels.start
        (.strukt [.prim 5, .slice false [.prim 1, .prim 2],
          .slice false [.prim 7], .gomap false [(3, .prim 9)]])) =
      .ok (.strukt [.prim 5, .slice false [.prim 1, .prim 2],
        .slice false [.prim 7], .gomap false [(3, .prim 9)]], []) :=
  C1_roundtrip _ _
    (by simp [Node.wf, Content.wf, wfList])
    (by simp [hasShape, contentShape, fieldsShape, elemsShape, entriesShape,
      keysNodup])
    (by simp [canon, canonContent, canonFields, canonElems, canonEntries,
      GoValue.isZero])

end ParquetGo
